import Mathlib

/-!
Verification of the column-flow analyzer core of the frame-check repository
(package frame-check-core). The Python source is shallowly embedded:

* a fragment of the Python AST sufficient for the analyzed programs
  (module with import / assignment / expression statements);
* frame_check_core.ast.models.get_value  -> getValue;
* frame_check_core.extractors.column     -> extractColumnRef, extractSingleColumnRef;
* frame_check_core.extractors.binop      -> extractColumnRefsFromBinop;
* frame_check_core.extractors.registry   -> extractorExtract (priority 10 column_ref,
  priority 20 binop, first truthy result wins);
* frame_check_core.tracker.Tracker       -> Tracker (strict and relaxed modes);
* frame_check_core.util.col_similarity   -> jaroWinkler, zeroDepsJaroWinkler
  (real arithmetic is modelled exactly, with rational numbers);
* frame_check_core.models.region         -> CodePosition, CodeRegion;
* frame_check_core.diagnostic            -> Diagnostic and the three builders;
* frame_check_core.ast.pandas            -> pdDataframe, pdReadCsv;
* frame_check_core.checker.Checker       -> the visitor, as a fueled step function.

Python dictionaries are modelled as association lists with Python semantics
(assignment to an existing key keeps its position, a new key is appended);
Python sets of strings are modelled as duplicate-free lists in first-insertion
order (no claim observes set iteration order; message rendering sorts).
Mutation is modelled by explicit state passing, and a raised exception by
Except.error. Object identity of AST subscript nodes, which the checker uses
for its skip set, is modelled by a numeric node id carried by the subscript
constructor.
-/

/-- Source position payload of an AST node, mirroring the CPython fields
lineno (1-based), col_offset (0-based), end_lineno and end_col_offset
(end_col_offset is already exclusive in CPython). The source guards
`node.end_lineno or node.lineno` against a missing end position; the model
carries a definite end position. -/
structure Pos where
  lineno : Nat
  colOffset : Nat
  endLineno : Nat
  endColOffset : Nat
  deriving DecidableEq

/-- Constant payload of an ast.Constant node. Only string constants are ever
inspected by the embedded code (isinstance checks against str); every other
constant behaves uniformly, so integers keep their value and the rest
collapses to otherVal. -/
inductive ConstVal where
  | str (s : String)
  | intVal (n : Int)
  | otherVal
  deriving DecidableEq

/-- The embedded fragment of Python expressions. Name and Subscript carry the
position payload used for diagnostic regions; Subscript also carries a node
id modelling Python object identity (id(node)), used by the skip set of the
checker. Dictionary keys are optional, as in ast.Dict where a None key marks
a double-star expansion. Call keywords with a None name model **kwargs. -/
inductive Expr where
  | name (pos : Pos) (id_ : String)
  | const (v : ConstVal)
  | listE (elts : List Expr)
  | dictE (keys : List (Option Expr)) (values : List Expr)
  | subscript (nid : Nat) (pos : Pos) (value : Expr) (slice : Expr)
  | binOp (left : Expr) (right : Expr)
  | attr (value : Expr) (attrName : String)
  | call (func : Expr) (args : List Expr) (keywords : List (Option String × Expr))

/-- The embedded fragment of Python statements: import, assignment and a bare
expression statement. An import item is a pair of the module name and the
optional alias (ast.alias fields name and asname). -/
inductive Stmt where
  | importStmt (names : List (String × Option String))
  | assign (targets : List Expr) (value : Expr)
  | exprStmt (value : Expr)

/-- Lookup in a Python dictionary modelled as an association list. -/
def dictGet {A : Type} (m : List (String × A)) (k : String) : Option A :=
  match m with
  | [] => none
  | (k2, v) :: rest => if k2 = k then some v else dictGet rest k

/-- Python dictionary assignment: an existing key keeps its position and gets
the new value, a new key is appended at the end. -/
def dictSet {A : Type} (m : List (String × A)) (k : String) (v : A) :
    List (String × A) :=
  match m with
  | [] => [(k, v)]
  | (k2, v2) :: rest =>
      if k2 = k then (k, v) :: rest else (k2, v2) :: dictSet rest k v

/-- Membership test for the modelled Python dictionary. -/
def dictMem {A : Type} (m : List (String × A)) (k : String) : Bool :=
  (dictGet m k).isSome

/-- Python set insertion on a duplicate-free list: add at the end when absent. -/
def setAdd (l : List String) (x : String) : List String :=
  if x ∈ l then l else l ++ [x]

/-- Iterated set insertion, preserving first-insertion order. -/
def setUnion (l : List String) (xs : List String) : List String :=
  xs.foldl setAdd l

/-- Shallow static value, mirroring the Result union of
frame_check_core.ast.models: a string, a list of strings, a dictionary with
string keys, or the Unknown sentinel. -/
inductive Result where
  | str (s : String)
  | strList (xs : List String)
  | dict (entries : List (String × Result))
  | unknown

/-- Helper of getValue for the ast.List branch: every element must be a string
constant, otherwise the whole list is rejected. -/
def parseStrListElts : List Expr → Option (List String)
  | [] => some []
  | Expr.const (ConstVal.str s) :: rest =>
      (parseStrListElts rest).map (fun xs => s :: xs)
  | _ => none

/-- Shallow parse of a dictionary value inside get_value: a string constant or
a list of string constants; anything else is Unknown. -/
def shallowVal : Expr → Result
  | Expr.const (ConstVal.str s) => Result.str s
  | Expr.listE elts =>
      match parseStrListElts elts with
      | some xs => Result.strList xs
      | none => Result.unknown
  | _ => Result.unknown

/-- Loop of the ast.Dict branch of get_value: zip of keys and values, a None
key is skipped, a non-string key rejects the whole dictionary, and entries are
stored with Python dictionary update semantics. -/
def parseDictEntries (acc : List (String × Result)) :
    List (Option Expr) → List Expr → Option (List (String × Result))
  | [], _ => some acc
  | _ :: _, [] => some acc
  | none :: ks, _ :: vs => parseDictEntries acc ks vs
  | some keyNode :: ks, v :: vs =>
      match keyNode with
      | Expr.const (ConstVal.str key) =>
          parseDictEntries (dictSet acc key (shallowVal v)) ks vs
      | _ => none

/-- Translation of frame_check_core.ast.models.get_value: fast shallow
extraction. Strings are returned directly; a list of string constants becomes
a string list and any other list is Unknown; a dictionary needs string keys
and shallow-parsable values; everything else is Unknown. -/
def getValue : Expr → Result
  | Expr.const (ConstVal.str s) => Result.str s
  | Expr.listE elts =>
      match parseStrListElts elts with
      | some xs => Result.strList xs
      | none => Result.unknown
  | Expr.dictE keys values =>
      match parseDictEntries [] keys values with
      | some entries => Result.dict entries
      | none => Result.unknown
  | _ => Result.unknown

/-- A DataFrame column reference extracted from the AST, mirroring
frame_check_core.refs.ColumnRef. The source stores the whole Subscript node;
the model keeps the data the checker reads from it: the node id, the region
payload of the subscript, the region payload and the id of the inner Name
node (node.value), and the accessed column names. -/
structure ColumnRef where
  nid : Nat
  pos : Pos
  dfPos : Pos
  dfName : String
  colNames : List String
  deriving DecidableEq

/-- Translation of frame_check_core.extractors.column.extract_column_ref:
name[str] gives a single-column reference, name[[str, ...]] with a non-empty
all-string list gives a multi-column reference, anything else gives None. -/
def extractColumnRef : Expr → Option (List ColumnRef)
  | Expr.subscript nid pos (Expr.name npos dfId) sliceNode =>
      match sliceNode with
      | Expr.const (ConstVal.str s) =>
          some [⟨nid, pos, npos, dfId, [s]⟩]
      | Expr.listE elts =>
          match parseStrListElts elts with
          | some colNames =>
              if colNames = [] then none
              else some [⟨nid, pos, npos, dfId, colNames⟩]
          | none => none
      | _ => none
  | _ => none

/-- Translation of extract_single_column_ref: first element of the result of
extract_column_ref when the list is truthy, None otherwise. -/
def extractSingleColumnRef (e : Expr) : Option ColumnRef :=
  match extractColumnRef e with
  | some (r :: _) => some r
  | _ => none

mutual

/-- Structural node count of an embedded expression; used as loop fuel (a
model artifact: the corresponding Python loops terminate because this count
strictly decreases). -/
def exprSize : Expr → Nat
  | Expr.name _ _ => 1
  | Expr.const _ => 1
  | Expr.listE elts => 1 + exprListSize elts
  | Expr.dictE keys values => 1 + exprOptListSize keys + exprListSize values
  | Expr.subscript _ _ value slice => 1 + exprSize value + exprSize slice
  | Expr.binOp l r => 1 + exprSize l + exprSize r
  | Expr.attr value _ => 1 + exprSize value
  | Expr.call func args keywords =>
      1 + exprSize func + exprListSize args + kwListSize keywords

/-- Node count of an expression list. -/
def exprListSize : List Expr → Nat
  | [] => 0
  | e :: es => exprSize e + exprListSize es

/-- Node count of a list of optional expressions (dictionary keys). -/
def exprOptListSize : List (Option Expr) → Nat
  | [] => 0
  | none :: es => exprOptListSize es
  | some e :: es => exprSize e + exprOptListSize es

/-- Node count of a keyword list. -/
def kwListSize : List (Option String × Expr) → Nat
  | [] => 0
  | (_, e) :: es => exprSize e + kwListSize es

end

/-- Stack loop of extract_column_refs_from_binop. The Python code appends to
and pops from the end of a list; the model keeps the stack top first, so
stack.extend([n.left, n.right]) followed by popping the right operand first
becomes pushing right before left. A leaf that is not a recognized column
reference aborts the whole extraction with None. The fuel argument bounds
the iteration count of the while loop; each iteration strictly decreases
the total node count on the stack, so that count is sufficient fuel.
asBinop is the is_binop type guard of frame_check_core.refs, returning the
two operands on success. -/
def asBinop : Expr → Option (Expr × Expr)
  | Expr.binOp l r => some (l, r)
  | _ => none

/-- Stack loop body (continued from the docstring above): pop the top node;
a BinOp pushes its two operands (right on top, as popping from the end of
the Python list), a recognized leaf appends its reference, anything else
aborts with None. -/
def binopGo : Nat → List Expr → List ColumnRef → Option (List ColumnRef)
  | _, [], acc => some acc
  | 0, _ :: _, _ => none
  | fuel + 1, n :: rest, acc =>
      match asBinop n with
      | some (l, r) => binopGo fuel (r :: l :: rest) acc
      | none =>
          match extractSingleColumnRef n with
          | some ref => binopGo fuel rest (acc ++ [ref])
          | none => none

/-- Translation of
frame_check_core.extractors.binop.extract_column_refs_from_binop: a non-BinOp
node gives None, otherwise the iterative depth-first stack walk collects one
reference per leaf, and an empty collection is reported as None. -/
def extractColumnRefsFromBinop : Expr → Option (List ColumnRef)
  | Expr.binOp l r =>
      match binopGo (exprSize l + exprSize r) [l, r].reverse [] with
      | some refs => if refs = [] then none else some refs
      | none => none
  | _ => none

/-- Python truthiness of an optional list, as used by the walrus guards
in the extractor registry: None and the empty list are falsy. -/
def truthyRefs : Option (List ColumnRef) → Bool
  | some (_ :: _) => true
  | _ => false

/-- Translation of frame_check_core.extractors.registry.Extractor.extract for
the registered extractors of the package: column_ref at priority 10, then
binop at priority 20; the first truthy result is returned, else None. The
package init file of frame_check_core.extractors does not define the names
extract and extract_single_column_ref imported by checker.py; this definition
follows Extractor.extract of registry.py, the registry that the two extractor
modules register into, matching section 4.1 of the specification. -/
def extractorExtract (e : Expr) : Option (List ColumnRef) :=
  let r1 := extractColumnRef e
  if truthyRefs r1 then r1
  else
    let r2 := extractColumnRefsFromBinop e
    if truthyRefs r2 then r2 else none

/-- Tracker mode: the Literal type of frame_check_core.tracker. -/
inductive Mode where
  | strict
  | relaxed
  deriving DecidableEq

/-- Translation of frame_check_core.tracker.Tracker: per-frame schema with a
dictionary from column name to its dependency set. -/
structure Tracker where
  id_ : String
  columns : List (String × List String)
  mode : Mode
  deriving DecidableEq

/-- The depends_on argument of Tracker.try_add: absent, a single string, or a
list of strings. -/
inductive DepArg where
  | noDeps
  | one (s : String)
  | many (l : List String)
  deriving DecidableEq

/-- Normalization step of try_add: a single string becomes a one-element
list. -/
def DepArg.toList : DepArg → List String
  | DepArg.noDeps => []
  | DepArg.one s => [s]
  | DepArg.many l => l

/-- Translation of Tracker.try_get: success when the column exists; in strict
mode a missing column name is returned unchanged, in relaxed mode the column
is auto-created with an empty dependency set. The returned pair is the Python
return value together with the updated tracker (mutation made explicit). -/
def Tracker.tryGet (tr : Tracker) (column : String) :
    Option String × Tracker :=
  if dictMem tr.columns column then (none, tr)
  else if tr.mode = Mode.strict then (some column, tr)
  else (none, { tr with columns := dictSet tr.columns column [] })

/-- Shared tail of try_add once all dependencies exist (or were created):
insert the column with an empty set when absent, then union the dependencies
into its dependency set. -/
def Tracker.addWithDeps (tr : Tracker) (column : String)
    (dependencies : List String) : Tracker :=
  let cols0 :=
    if dictMem tr.columns column then tr.columns
    else tr.columns ++ [(column, [])]
  let old := (dictGet cols0 column).getD []
  { tr with columns := dictSet cols0 column (setUnion old dependencies) }

/-- Translation of Tracker.try_add. Without dependencies the column is added
with an empty set and the call always succeeds. With dependencies, strict
mode first collects the missing dependencies and, when any is missing,
returns them without touching the column map; relaxed mode auto-creates the
missing dependencies. The pair returns the Python result and the updated
tracker. -/
def Tracker.tryAdd (tr : Tracker) (column : String) (dependsOn : DepArg) :
    Option (List String) × Tracker :=
  match dependsOn with
  | DepArg.noDeps =>
      if dictMem tr.columns column then (none, tr)
      else (none, { tr with columns := tr.columns ++ [(column, [])] })
  | d =>
      let dependencies := d.toList
      if tr.mode = Mode.strict then
        let missing := dependencies.filter (fun dep => !dictMem tr.columns dep)
        if missing = [] then (none, tr.addWithDeps column dependencies)
        else (some missing, tr)
      else
        let cols1 := dependencies.foldl
          (fun cs dep => if dictMem cs dep then cs else cs ++ [(dep, [])])
          tr.columns
        (none, Tracker.addWithDeps { tr with columns := cols1 } column dependencies)

/-- Translation of Tracker.new_with_columns: a strict tracker seeded with the
given columns, each with an empty dependency set. -/
def Tracker.newWithColumns (id_ : String) (columns : List String) : Tracker :=
  { id_ := id_
    mode := Mode.strict
    columns := columns.foldl (fun m c => dictSet m c []) [] }

/-- Translation of Tracker.get_core: the independent columns, those with an
empty dependency set. -/
def Tracker.getCore (tr : Tracker) : List String :=
  (tr.columns.filter (fun p => p.2 = [])).map Prod.fst

/-- Lowercased character list of a string, modelling str.lower() (the column
names in play are ASCII, where Char.toLower agrees with Python). -/
def pyLower (s : String) : List Char :=
  s.data.map Char.toLower

/-- Inner loop of the Jaro matching phase: first index j with
start <= j < start + count such that s2[j] equals the character c and
hash_s2[j] is unset. -/
def findMatchIdx (c : Char) (l2 : List Char) (h2 : List Bool) :
    Nat → Nat → Option Nat
  | _, 0 => none
  | j, count + 1 =>
      match l2.get? j, h2.get? j with
      | some ch, some hb =>
          if ch = c ∧ hb = false then some j
          else findMatchIdx c l2 h2 (j + 1) count
      | _, _ => findMatchIdx c l2 h2 (j + 1) count

/-- State of the Jaro matching phase: the two hash arrays and the match
count. -/
structure MatchState where
  h1 : List Bool
  h2 : List Bool
  m : Nat
  deriving DecidableEq

/-- One iteration of the outer matching loop at index i: search the window
max(0, i - maxDist) to min(len2, i + maxDist + 1) exclusive for a fresh
matching character; on success set both hash entries and count the match. -/
def matchStep (l1 l2 : List Char) (maxDist : Int) (st : MatchState) (i : Nat) :
    MatchState :=
  let lo : Nat := (max 0 ((i : Int) - maxDist)).toNat
  let hi : Nat := (min (l2.length : Int) ((i : Int) + maxDist + 1)).toNat
  match l1.get? i with
  | none => st
  | some c =>
      match findMatchIdx c l2 st.h2 lo (hi - lo) with
      | some j =>
          { h1 := st.h1.set i true, h2 := st.h2.set j true, m := st.m + 1 }
      | none => st

/-- Full matching phase: fold of matchStep over the indices of the first
string, starting from all-unset hash arrays. -/
def matchPhase (l1 l2 : List Char) (maxDist : Int) : MatchState :=
  (List.range l1.length).foldl (matchStep l1 l2 maxDist)
    ⟨List.replicate l1.length false, List.replicate l2.length false, 0⟩

/-- Characters of a string selected by its hash array, in order. The Python
transposition loop walks the set entries of hash_s1 and, for each, advances a
pointer to the next set entry of hash_s2 and compares the two characters;
since the matching phase sets exactly one entry in each array per match, that
loop compares the k-th selected character of s1 with the k-th selected
character of s2, which is what this selection models. -/
def matchedChars (l : List Char) (h : List Bool) : List Char :=
  ((l.zip h).filter (fun p => p.2)).map Prod.fst

/-- Pointwise difference count of the transposition loop (before the final
halving). -/
def countDiff : List Char → List Char → Nat
  | a :: as2, b :: bs => (if a = b then 0 else 1) + countDiff as2 bs
  | _, _ => 0

/-- Length of the common prefix of two character lists, mirroring the final
loop of jaro_winkler (walk while characters agree, stop at the first
difference or at the end of the shorter string). -/
def commonStartLen : List Char → List Char → Nat
  | a :: as2, b :: bs => if a = b then commonStartLen as2 bs + 1 else 0
  | _, _ => 0

/-- Exact fraction with integer numerator and natural denominator, used to
model the Python float arithmetic of jaro_winkler exactly (every quantity in
that function is a ratio of small integers, so exact rational arithmetic and
the float arithmetic agree on the comparisons performed). Fractions are not
normalized; every fraction built by the similarity code has a positive
denominator. -/
structure Frac where
  num : Int
  den : Nat
  deriving DecidableEq

/-- The fraction n / 1. -/
def Frac.ofNat (n : Nat) : Frac :=
  ⟨Int.ofNat n, 1⟩

/-- Fraction addition. -/
def Frac.add (a b : Frac) : Frac :=
  ⟨a.num * (b.den : Int) + b.num * (a.den : Int), a.den * b.den⟩

/-- Fraction subtraction. -/
def Frac.sub (a b : Frac) : Frac :=
  ⟨a.num * (b.den : Int) - b.num * (a.den : Int), a.den * b.den⟩

/-- Fraction multiplication. -/
def Frac.mul (a b : Frac) : Frac :=
  ⟨a.num * b.num, a.den * b.den⟩

/-- Fraction division (the divisors in play are strictly positive). -/
def Frac.div (a b : Frac) : Frac :=
  ⟨a.num * (b.den : Int) * b.num.sign, a.den * b.num.natAbs⟩

/-- Python abs on the modelled float. -/
def Frac.absF (a : Frac) : Frac :=
  ⟨if a.num < 0 then -a.num else a.num, a.den⟩

/-- Strict comparison by cross multiplication (sound for positive
denominators, which holds for every fraction the similarity code builds). -/
def Frac.ltB (a b : Frac) : Bool :=
  a.num * (b.den : Int) < b.num * (a.den : Int)

/-- Value equality by cross multiplication (Python float equality). -/
def Frac.eqB (a b : Frac) : Bool :=
  a.num * (b.den : Int) = b.num * (a.den : Int)

/-- The rational value of a fraction. -/
def Frac.toRat (a : Frac) : ℚ :=
  (a.num : ℚ) / (a.den : ℚ)

/-- Translation of frame_check_core.util.col_similarity.jaro_winkler with
exact arithmetic in place of Python floats. Both strings are lowercased;
equal strings give 1; a zero match count gives 0; otherwise the Jaro value is
adjusted by the Winkler bonus with prefix scale 1/10 and prefix length capped
at 4. -/
def jaroWinkler (s1 s2 : String) : Frac :=
  let l1 := pyLower s1
  let l2 := pyLower s2
  if l1 = l2 then Frac.ofNat 1
  else
    let len1 := l1.length
    let len2 := l2.length
    let maxDist : Int := (Int.ofNat (max len1 len2 / 2)) - 1
    let st := matchPhase l1 l2 maxDist
    if st.m = 0 then Frac.ofNat 0
    else
      let t : Nat := countDiff (matchedChars l1 st.h1) (matchedChars l2 st.h2) / 2
      let jaro : Frac :=
        (((Frac.ofNat st.m).div (Frac.ofNat len1)).add
          (((Frac.ofNat st.m).div (Frac.ofNat len2)).add
            (((Frac.ofNat st.m).sub (Frac.ofNat t)).div (Frac.ofNat st.m)))).div
          (Frac.ofNat 3)
      let pfx : Nat := min 4 (commonStartLen l1 l2)
      jaro.add (((⟨1, 10⟩ : Frac).mul (Frac.ofNat pfx)).mul
        ((Frac.ofNat 1).sub jaro))

/-- Python max over a non-empty list of modelled floats: fold of the binary
max, which keeps the earlier element on ties. The empty case is unreachable
behind the emptiness guard of zero_deps_jaro_winkler. -/
def pyMaxF : List Frac → Frac
  | [] => Frac.ofNat 0
  | x :: xs => xs.foldl (fun a b => if a.ltB b then b else a) x

/-- Python list.index on modelled floats: index of the first occurrence by
value equality. The not-found case is unreachable at the call site (the
searched value is the maximum of the list) and defaults past the end. -/
def pyIndexF (xs : List Frac) (v : Frac) : Nat :=
  match xs with
  | [] => 0
  | x :: rest => if x.eqB v then 0 else pyIndexF rest v + 1

/-- Translation of zero_deps_jaro_winkler: an empty candidate collection
gives None; otherwise a dictionary from candidate to the absolute similarity
is built (duplicate candidates collapse onto one key carrying the same
value), and when the maximum of the values is strictly above 9/10 the key at
the first index attaining it is returned. -/
def zeroDepsJaroWinkler (targetCol : String) (existingCols : List String) :
    Option String :=
  if existingCols.isEmpty then none
  else
    let entries := existingCols.foldl
      (fun m col => dictSet m col (Frac.absF (jaroWinkler targetCol col))) []
    let vals := entries.map Prod.snd
    if vals.isEmpty then none
    else
      let targetValue := pyMaxF vals
      if (⟨9, 10⟩ : Frac).ltB targetValue then
        let index := pyIndexF vals targetValue
        some ((entries.map Prod.fst).getD index "")
      else none

/-- Translation of frame_check_core.models.region.CodePosition: a point in
source code with 1-based row and 0-based column. -/
structure CodePosition where
  row : Nat
  col : Nat
  deriving DecidableEq

/-- Ordering of CodePosition as generated by the dataclass order option:
lexicographic on the (row, col) tuple. -/
def CodePosition.ltB (a b : CodePosition) : Bool :=
  a.row < b.row || (a.row = b.row && a.col < b.col)

/-- Translation of CodeRegion: a rectangular region with exclusive end. -/
structure CodeRegion where
  start : CodePosition
  stop : CodePosition
  deriving DecidableEq

/-- Checked constructor of CodeRegion, modelling the post-init hook that
raises ValueError when the end position is before the start position. -/
def CodeRegion.make (start stop : CodePosition) : Except String CodeRegion :=
  if stop.ltB start then
    Except.error "End position must not be before start position."
  else Except.ok ⟨start, stop⟩

/-- Translation of CodeRegion.from_ast_node: the start is (lineno,
col_offset); the inclusive end_lineno becomes exclusive by adding 1, while
end_col_offset is kept as is. -/
def CodeRegion.fromAstPos (p : Pos) : Except String CodeRegion :=
  CodeRegion.make ⟨p.lineno, p.colOffset⟩ ⟨p.endLineno + 1, p.endColOffset⟩

/-- Severity of a diagnostic; the source enum has the single member ERROR. -/
inductive Severity where
  | error
  deriving DecidableEq

/-- Translation of frame_check_core.diagnostic.Diagnostic. -/
structure Diagnostic where
  message : String
  severity : Severity
  region : CodeRegion
  hint : Option (List String) := none
  nameSuggestion : Option String := none
  definitionRegion : Option CodeRegion := none
  dataSrcRegion : Option CodeRegion := none
  deriving DecidableEq

/-- The single quote character, used by the Python repr of the simple column
and frame names in play and by the quoting inside the message f-strings. -/
def squote : String :=
  String.singleton (Char.ofNat 39)

/-- Python repr of the simple identifier-like strings used in diagnostics:
the string wrapped in single quotes (none of the analyzed names contains a
quote or an escape). -/
def pyRepr (s : String) : String :=
  squote ++ s ++ squote

/-- Byte-wise string comparison, modelling the Python string ordering used by
sorted (code-point lexicographic). -/
def charListLe : List Char → List Char → Bool
  | [], _ => true
  | _ :: _, [] => false
  | a :: as2, b :: bs =>
      if a.toNat < b.toNat then true
      else if b.toNat < a.toNat then false
      else charListLe as2 bs

/-- String form of charListLe. -/
def pyStrLe (a b : String) : Bool :=
  charListLe a.data b.data

/-- Insertion step of the sort used to model Python sorted on strings. -/
def insertSortedStr (x : String) : List String → List String
  | [] => [x]
  | y :: ys => if pyStrLe x y then x :: y :: ys else y :: insertSortedStr x ys

/-- Model of Python sorted on a list of strings (stable; ascending). -/
def pySorted (l : List String) : List String :=
  l.foldr insertSortedStr []

/-- Translation of frame_check_core.diagnostic._format_columns with the
default max_display of 8: the sorted quoted names, truncated to the first
three and last two with a count when more than eight. -/
def formatColumns (cols : List String) : String :=
  let sortedCols := pySorted cols
  if sortedCols.length ≤ 8 then
    String.intercalate ", " (sortedCols.map pyRepr)
  else
    let first := String.intercalate ", " ((sortedCols.take 3).map pyRepr)
    let last := String.intercalate ", "
      ((sortedCols.drop (sortedCols.length - 2)).map pyRepr)
    let remaining := sortedCols.length - 5
    first ++ ", ...+" ++ toString remaining ++ " more..., " ++ last

/-- Translation of diagnostic.df_is_not_declared. The source asserts that the
subscript value is a Name node and uses its id and region; the extractor
already guarantees this, and the model passes the Name data directly. -/
def dfIsNotDeclared (ref : ColumnRef) : Except String Diagnostic := do
  let region ← CodeRegion.fromAstPos ref.dfPos
  Except.ok
    { message := "DataFrame " ++ pyRepr ref.dfName ++ " is not declared."
      severity := Severity.error
      region := region }

/-- Translation of diagnostic.wrong_assignment: header line singular or
plural after the number of missing columns, an optional per-missing-name
suggestion line, and an available-columns line when the frame has columns. -/
def wrongAssignment (writeCol : String) (missingCols : List String)
    (writePos : Pos) (dfName : String) (availableCols : List String) :
    Except String Diagnostic := do
  let header :=
    match missingCols with
    | [m] =>
        "Cannot assign to " ++ dfName ++ "[" ++ pyRepr writeCol ++ "]: " ++
          "column " ++ pyRepr m ++ " does not exist."
    | _ =>
        "Cannot assign to " ++ dfName ++ "[" ++ pyRepr writeCol ++ "]: " ++
          "columns " ++ String.intercalate ", " (missingCols.map pyRepr) ++
          " do not exist."
  let suggestions := missingCols.filterMap
    (fun col =>
      (zeroDepsJaroWinkler col availableCols).map
        (fun similar => pyRepr col ++ " -> " ++ pyRepr similar))
  let lines1 :=
    if suggestions = [] then [header]
    else [header, "  Did you mean: " ++ String.intercalate ", " suggestions ++ "?"]
  let lines2 :=
    if availableCols = [] then lines1
    else lines1 ++ ["  Available columns: " ++ formatColumns availableCols]
  let region ← CodeRegion.fromAstPos writePos
  Except.ok
    { message := String.intercalate "\n" lines2
      severity := Severity.error
      region := region }

/-- Translation of diagnostic.wrong_read: the missing-column message, an
optional suggestion line, and an available-columns line when the frame has
columns. -/
def wrongRead (colName : String) (nodePos : Pos) (dfName : String)
    (availableCols : List String) : Except String Diagnostic := do
  let header :=
    "Column " ++ pyRepr colName ++ " does not exist on DataFrame " ++
      pyRepr dfName ++ "."
  let lines1 :=
    match zeroDepsJaroWinkler colName availableCols with
    | some similar => [header, "  Did you mean: " ++ pyRepr similar ++ "?"]
    | none => [header]
  let lines2 :=
    if availableCols = [] then lines1
    else lines1 ++ ["  Available columns: " ++ formatColumns availableCols]
  let region ← CodeRegion.fromAstPos nodePos
  Except.ok
    { message := String.intercalate "\n" lines2
      severity := Severity.error
      region := region }

/-- Translation of frame_check_core.ast.models.idx_or_key: prefer the
positional argument at the index when present, then the keyword, else
Unknown. -/
def idxOrKey (argsv : List Result) (keywordsv : List (String × Result))
    (idx : Option Nat) (key : Option String) : Result :=
  match idx with
  | some i =>
      if i < argsv.length then argsv.getD i Result.unknown
      else
        match key with
        | some k => (dictGet keywordsv k).getD Result.unknown
        | none => Result.unknown
  | none =>
      match key with
      | some k => (dictGet keywordsv k).getD Result.unknown
      | none => Result.unknown

/-- Translation of frame_check_core.ast.pandas.pd_dataframe. A dictionary
gives its string keys (all keys of a parsed dictionary are strings); a list
would need every item to be a dictionary, which the shallow Result list of
strings only satisfies when empty; anything else gives no frame. The
IllegalAccess component of the handler result is constantly None in the
source and is omitted. -/
def pdDataframe (argsv : List Result) (keywordsv : List (String × Result)) :
    Option (List String) :=
  match idxOrKey argsv keywordsv (some 0) (some "data") with
  | Result.dict entries => some (entries.map Prod.fst)
  | Result.strList xs => if xs.isEmpty then some [] else none
  | _ => none

/-- Translation of frame_check_core.ast.pandas.pd_read_csv: a string usecols
gives a one-column frame, a list of strings gives those columns as a set, and
anything else (including a list with any non-string element, which get_value
already collapsed to Unknown) gives no frame. -/
def pdReadCsv (argsv : List Result) (keywordsv : List (String × Result)) :
    Option (List String) :=
  match idxOrKey argsv keywordsv none (some "usecols") with
  | Result.str u => some [u]
  | Result.strList xs => some (setUnion [] xs)
  | _ => none

/-- The constructor registry PD of frame_check_core.ast.models, populated by
frame_check_core.ast.pandas. -/
def pdGetMethod (methodName : String) :
    Option (List Result → List (String × Result) → Option (List String)) :=
  if methodName = "DataFrame" then some pdDataframe
  else if methodName = "read_csv" then some pdReadCsv
  else none

/-- Argument parsing of the PDMethod and DFMethod plumbing. Modelled from the
spec: checker.py calls the handlers as method(args, keywords,
self.definitions), the signature of the definitions-aware parse_args of
frame_check_core.handlers.models (every positional argument and every named
keyword is parsed); the variant in frame_check_core.ast.models, whose
parse_args takes arg_indices and keyword_names instead, is not the one the
call sites were written against. Value parsing itself is getValue of
frame_check_core.ast.models, which ignores variable bindings, so the
definitions argument is unused here. -/
def parseCallArgs (args : List Expr) (keywords : List (Option String × Expr))
    (_definitions : List (String × Result)) :
    List Result × List (String × Result) :=
  let argsv := args.map getValue
  let keywordsv := keywords.foldl
    (fun m kw =>
      match kw.1 with
      | some keywordName => dictSet m keywordName (getValue kw.2)
      | none => m)
    []
  (argsv, keywordsv)

/-- A DataFrame method handler: from the current column set and the parsed
arguments to the updated column set and the optional returned column set
(the IllegalAccess component is constantly None in the source). -/
abbrev DfHandler :=
  List String → List Result → List (String × Result) →
    List String × Option (List String)

/-- Handler for DataFrame.assign. Modelled from the spec (section 4.3): the
receiver is unchanged and the returned frame is the receiver united with the
keyword names; the source carries this handler in
frame_check_core.ast.dataframe for a twin registry class that the imported
registry of checker.py never receives. -/
def dfAssign : DfHandler := fun columns _argsv keywordsv =>
  (columns, some (setUnion columns (keywordsv.map Prod.fst)))

/-- Handler for DataFrame.insert, modelled from the spec (section 4.3) like
dfAssign: the receiver gains the column named by positional argument 1 or
keyword column when that argument is a string constant; no returned frame. -/
def dfInsert : DfHandler := fun columns argsv keywordsv =>
  match idxOrKey argsv keywordsv (some 1) (some "column") with
  | Result.str s => (setAdd columns s, none)
  | _ => (columns, none)

/-- The DataFrame method registry (assign and insert). -/
def dfGetMethod (methodName : String) : Option DfHandler :=
  if methodName = "assign" then some dfAssign
  else if methodName = "insert" then some dfInsert
  else none

/-- Per-file state of the Checker, mirroring its attributes: the skip set of
subscript node ids, the diagnostics list, the tracker map dfs, the pandas
aliases and the variable definitions. -/
structure CState where
  skip : List Nat
  diagnostics : List Diagnostic
  dfs : List (String × Tracker)
  pandasAliases : List String
  definitions : List (String × Result)

/-- The fresh state built by Checker.__init__. -/
def initState : CState :=
  { skip := [], diagnostics := [], dfs := [], pandasAliases := []
    definitions := [] }

/-- Translation of Checker._try_create_dataframe: on x = alias.func(...) with
a tracked alias and a registered constructor whose handler yields a frame,
register a strict tracker for x seeded with the columns of the frame; in
every other case report no creation. -/
def tryCreateDataframe (s : CState) (targets : List Expr) (value : Expr) :
    Option CState :=
  match targets with
  | [Expr.name _ dfName] =>
      match value with
      | Expr.call (Expr.attr (Expr.name _ moduleName) methodName) args keywords =>
          if moduleName ∈ s.pandasAliases then
            match pdGetMethod methodName with
            | some handler =>
                let (argsv, keywordsv) := parseCallArgs args keywords s.definitions
                match handler argsv keywordsv with
                | some createdCols =>
                    let tr := Tracker.newWithColumns dfName (setUnion [] createdCols)
                    some { s with dfs := dictSet s.dfs dfName tr }
                | none => none
            | none => none
          else none
      | _ => none
  | _ => none

/-- Translation of Checker._try_dataframe_method: on x = y.method(...) with a
tracked frame y and a registered method, run the handler on the current
columns of y and register a strict tracker for x seeded with the returned
columns when present, else with the updated columns. -/
def tryDataframeMethod (s : CState) (targets : List Expr) (value : Expr) :
    Option CState :=
  match targets with
  | [Expr.name _ resultName] =>
      match value with
      | Expr.call (Expr.attr (Expr.name _ sourceDfName) methodName) args keywords =>
          match dictGet s.dfs sourceDfName with
          | none => none
          | some tracker =>
              let currentColumns := tracker.columns.map Prod.fst
              match dfGetMethod methodName with
              | none => none
              | some handler =>
                  let (argsv, keywordsv) := parseCallArgs args keywords s.definitions
                  let (updated, returned) := handler currentColumns argsv keywordsv
                  let resultCols := returned.getD updated
                  let tr := Tracker.newWithColumns resultName resultCols
                  some { s with dfs := dictSet s.dfs resultName tr }
      | _ => none
  | _ => none

/-- Children of an expression node in the field order walked by
ast.NodeVisitor.generic_visit (dictionary keys before values, call function
before arguments before keyword values). -/
def childExprs : Expr → List Expr
  | Expr.name _ _ => []
  | Expr.const _ => []
  | Expr.listE elts => elts
  | Expr.dictE keys values => keys.filterMap id ++ values
  | Expr.subscript _ _ value slice => [value, slice]
  | Expr.binOp l r => [l, r]
  | Expr.attr value _ => [value]
  | Expr.call func args keywords => func :: args ++ keywords.map Prod.snd

/-- A pending unit of work of the visitor: a statement list (the module
body), a single statement (NodeVisitor.visit dispatch), an expression list
(generic_visit over children) or a single expression. -/
inductive VTask where
  | stmts (l : List Stmt)
  | stmt (st : Stmt)
  | exprs (l : List Expr)
  | expr (e : Expr)

/-- The visitor of frame_check_core.checker.Checker as a fueled step
function over explicit state. The fuel only bounds the recursion depth of the
model (it is a model artifact, not part of the source); every analyzed
program is run with sufficient fuel. The stmt arms translate visit_Import and
visit_Assign, the expr arm for a subscript translates visit_Subscript, and
the list arms translate generic_visit. -/
def run : Nat → CState → VTask → Except String CState
  | 0, _, _ => Except.error "model fuel exhausted"
  | fuel + 1, s, t =>
    match t with
    | VTask.stmts [] => Except.ok s
    | VTask.stmts (st :: rest) => do
        let s1 ← run fuel s (VTask.stmt st)
        run fuel s1 (VTask.stmts rest)
    | VTask.exprs [] => Except.ok s
    | VTask.exprs (e :: rest) => do
        let s1 ← run fuel s (VTask.expr e)
        run fuel s1 (VTask.exprs rest)
    | VTask.stmt (Stmt.importStmt names) =>
        let aliases := names.foldl
          (fun al (p : String × Option String) =>
            if p.1 = "pandas" then setAdd al (p.2.getD p.1) else al)
          s.pandasAliases
        Except.ok { s with pandasAliases := aliases }
    | VTask.stmt (Stmt.exprStmt e) => run fuel s (VTask.expr e)
    | VTask.stmt (Stmt.assign targets value) =>
        match tryCreateDataframe s targets value with
        | some s1 => run fuel s1 (VTask.exprs (targets ++ [value]))
        | none =>
        match tryDataframeMethod s targets value with
        | some s1 => run fuel s1 (VTask.exprs (targets ++ [value]))
        | none =>
        let s :=
          match targets with
          | [Expr.name _ varName] =>
              { s with definitions := dictSet s.definitions varName (getValue value) }
          | _ => s
        match targets with
        | [tgt] =>
            match extractSingleColumnRef tgt with
            | none => run fuel s (VTask.exprs (targets ++ [value]))
            | some targetRef =>
                match dictGet s.dfs targetRef.dfName with
                | none => do
                    let d ← dfIsNotDeclared targetRef
                    run fuel { s with diagnostics := s.diagnostics ++ [d] }
                      (VTask.exprs (targets ++ [value]))
                | some tracker =>
                    match extractorExtract value with
                    | none =>
                        let tracker1 := targetRef.colNames.foldl
                          (fun tr c => (tr.tryAdd c DepArg.noDeps).2) tracker
                        let s1 := { s with
                          dfs := dictSet s.dfs targetRef.dfName tracker1
                          skip := s.skip ++ [targetRef.nid] }
                        run fuel s1 (VTask.exprs (targets ++ [value]))
                    | some readRefs =>
                        match readRefs.find? (fun r => !(dictMem s.dfs r.dfName)) with
                        | some badRef => do
                            let d ← dfIsNotDeclared badRef
                            run fuel { s with diagnostics := s.diagnostics ++ [d] }
                              (VTask.exprs (targets ++ [value]))
                        | none =>
                            let readCols := readRefs.map (fun r => r.colNames.headD "")
                            match targetRef.colNames with
                            | [] => Except.error "IndexError"
                            | firstCol :: restCols =>
                                let (missingOpt, tracker1) :=
                                  tracker.tryAdd firstCol (DepArg.many readCols)
                                match missingOpt with
                                | some missing => do
                                    let d ← wrongAssignment
                                      (String.intercalate ", " targetRef.colNames)
                                      missing targetRef.pos targetRef.dfName
                                      (tracker1.columns.map Prod.fst)
                                    let s1 := { s with
                                      dfs := dictSet s.dfs targetRef.dfName tracker1
                                      diagnostics := s.diagnostics ++ [d]
                                      skip := (s.skip ++ [targetRef.nid]) ++
                                        readRefs.map (fun r => r.nid) }
                                    run fuel s1 (VTask.exprs (targets ++ [value]))
                                | none =>
                                    let tracker2 := restCols.foldl
                                      (fun tr c =>
                                        (tr.tryAdd c (DepArg.many readCols)).2)
                                      tracker1
                                    let s1 := { s with
                                      dfs := dictSet s.dfs targetRef.dfName tracker2
                                      skip := (s.skip ++ [targetRef.nid]) ++
                                        readRefs.map (fun r => r.nid) }
                                    run fuel s1 (VTask.exprs (targets ++ [value]))
        | _ => run fuel s (VTask.exprs (targets ++ [value]))
    | VTask.expr e =>
        match e with
        | Expr.subscript nid pos v sl =>
            if nid ∈ s.skip then run fuel s (VTask.exprs [v, sl])
            else
              match extractSingleColumnRef (Expr.subscript nid pos v sl) with
              | none => run fuel s (VTask.exprs [v, sl])
              | some ref =>
                  match dictGet s.dfs ref.dfName with
                  | none => run fuel s (VTask.exprs [v, sl])
                  | some tracker =>
                      if ref.colNames.length ≠ 1 then
                        run fuel s (VTask.exprs [v, sl])
                      else
                        let (missingOpt, tracker1) :=
                          tracker.tryGet (ref.colNames.headD "")
                        let s1 := { s with
                          dfs := dictSet s.dfs ref.dfName tracker1 }
                        match missingOpt with
                        | some missingName => do
                            let d ← wrongRead missingName ref.pos ref.dfName
                              (tracker1.columns.map Prod.fst)
                            run fuel
                              { s1 with diagnostics := s1.diagnostics ++ [d] }
                              (VTask.exprs [v, sl])
                        | none => run fuel s1 (VTask.exprs [v, sl])
        | other => run fuel s (VTask.exprs (childExprs other))

/-- Sufficient fuel for a whole program: the recursion depth of run is
bounded by the tree size of the module. -/
def stmtSize : Stmt → Nat
  | Stmt.importStmt _ => 1
  | Stmt.assign targets value => 1 + exprListSize targets + exprSize value
  | Stmt.exprStmt value => 1 + exprSize value

/-- Node count of a statement list. -/
def progSize : List Stmt → Nat
  | [] => 0
  | st :: rest => stmtSize st + progSize rest

/-- Sufficient fuel for a whole program: the recursion depth of run is
bounded by the node count of the module. -/
def fuelFor (prog : List Stmt) : Nat :=
  2 * progSize prog + 2 * (prog.length + 1) + 4

/-- Translation of Checker.check restricted to the core: build a fresh
checker and visit the module body in source order. -/
def Checker.check (prog : List Stmt) : Except String CState :=
  run (fuelFor prog) initState (VTask.stmts prog)

/-- The program of claim C1, laid out on three lines:
line 1 is the pandas import, line 2 builds the frame from a dictionary
literal with columns A and B, and line 3 reads the missing column C. The
position payloads are the ones CPython assigns for this layout. -/
def c1createValue : Expr :=
  Expr.call (Expr.attr (Expr.name ⟨2, 5, 2, 7⟩ "pd") "DataFrame")
    [Expr.dictE
      [some (Expr.const (ConstVal.str "A")), some (Expr.const (ConstVal.str "B"))]
      [Expr.listE [Expr.const (ConstVal.intVal 1)],
       Expr.listE [Expr.const (ConstVal.intVal 2)]]]
    []

/-- The subscript df["C"] of the C1 program (line 3, columns 4 to 11). -/
def c1sub : Expr :=
  Expr.subscript 1 ⟨3, 4, 3, 11⟩ (Expr.name ⟨3, 4, 3, 6⟩ "df")
    (Expr.const (ConstVal.str "C"))

/-- The three statements of the C1 program. -/
def c1prog : List Stmt :=
  [Stmt.importStmt [("pandas", some "pd")],
   Stmt.assign [Expr.name ⟨2, 0, 2, 2⟩ "df"] c1createValue,
   Stmt.assign [Expr.name ⟨3, 0, 3, 1⟩ "x"] c1sub]

/-- C1: running the checker on the program made of the pandas
alias line / df = pd.DataFrame with columns A and B / x = df["C"]
produces exactly one diagnostic: the missing-column read diagnostic built by
wrong_read for column C on frame df, whose region is derived from the
df["C"] subscript node (start row 3 column 4, exclusive end row 4 column 11),
and which carries no name suggestion; no other diagnostic is produced and no
exception escapes (the checker returns normally). -/
theorem claim_C1 :
    ∃ st d,
      Checker.check c1prog = Except.ok st ∧
      st.diagnostics = [d] ∧
      wrongRead "C" ⟨3, 4, 3, 11⟩ "df" ["A", "B"] = Except.ok d ∧
      CodeRegion.fromAstPos ⟨3, 4, 3, 11⟩ = Except.ok d.region ∧
      d.region = ⟨⟨3, 4⟩, ⟨4, 11⟩⟩ ∧
      d.nameSuggestion = none :=
  ⟨_, _, rfl, rfl, rfl, rfl, rfl, rfl⟩

/-- The frame-building statement of the C2 program (line 2, column A only). -/
def c2createValue : Expr :=
  Expr.call (Expr.attr (Expr.name ⟨2, 5, 2, 7⟩ "pd") "DataFrame")
    [Expr.dictE [some (Expr.const (ConstVal.str "A"))]
      [Expr.listE [Expr.const (ConstVal.intVal 1)]]]
    []

/-- The write target df["C"] of the C2 program (line 3, columns 0 to 7). -/
def c2target : Expr :=
  Expr.subscript 1 ⟨3, 0, 3, 7⟩ (Expr.name ⟨3, 0, 3, 2⟩ "df")
    (Expr.const (ConstVal.str "C"))

/-- The right-hand side df["X"] + df["Y"] of the C2 program. -/
def c2rhs : Expr :=
  Expr.binOp
    (Expr.subscript 2 ⟨3, 10, 3, 17⟩ (Expr.name ⟨3, 10, 3, 12⟩ "df")
      (Expr.const (ConstVal.str "X")))
    (Expr.subscript 3 ⟨3, 20, 3, 27⟩ (Expr.name ⟨3, 20, 3, 22⟩ "df")
      (Expr.const (ConstVal.str "Y")))

/-- The three statements of the C2 program:
the pandas import as pd / df = pd.DataFrame with column A /
df["C"] = df["X"] + df["Y"]. -/
def c2prog : List Stmt :=
  [Stmt.importStmt [("pandas", some "pd")],
   Stmt.assign [Expr.name ⟨2, 0, 2, 2⟩ "df"] c2createValue,
   Stmt.assign [c2target] c2rhs]

/-- C2: on the program df = pd.DataFrame with column A followed by
df["C"] = df["X"] + df["Y"], the checker emits exactly one
invalid-assignment diagnostic; its message names both missing columns with
the plural wording (the binop extractor walks the right operand first, so
they appear as Y then X) followed by the available-columns note; and the
failed write leaves the tracker of df unchanged: its column map still holds
exactly column A with no dependencies, so C was not added. -/
theorem claim_C2 :
    ∃ st d,
      Checker.check c2prog = Except.ok st ∧
      st.diagnostics = [d] ∧
      d.message =
        "Cannot assign to df[" ++ pyRepr "C" ++ "]: columns " ++ pyRepr "Y" ++
          ", " ++ pyRepr "X" ++ " do not exist." ++
          "\n  Available columns: " ++ pyRepr "A" ∧
      wrongAssignment "C" ["Y", "X"] ⟨3, 0, 3, 7⟩ "df" ["A"] = Except.ok d ∧
      (dictGet st.dfs "df").map Tracker.columns = some [("A", [])] :=
  ⟨_, _, rfl, rfl, rfl, rfl, rfl⟩

/-- Import statement of the C7 counterexample program. -/
def c7s1 : Stmt :=
  Stmt.importStmt [("pandas", some "pd")]

/-- Second statement of the C7 counterexample program: df = pd.DataFrame
with column A. -/
def c7s2 : Stmt :=
  Stmt.assign [Expr.name ⟨2, 0, 2, 2⟩ "df"]
    (Expr.call (Expr.attr (Expr.name ⟨2, 5, 2, 7⟩ "pd") "DataFrame")
      [Expr.dictE [some (Expr.const (ConstVal.str "A"))]
        [Expr.listE [Expr.const (ConstVal.intVal 1)]]]
      [])

/-- Third statement of the C7 counterexample program: df = pd.DataFrame
with column B, re-creating the frame under the same name. -/
def c7s3 : Stmt :=
  Stmt.assign [Expr.name ⟨3, 0, 3, 2⟩ "df"]
    (Expr.call (Expr.attr (Expr.name ⟨3, 5, 3, 7⟩ "pd") "DataFrame")
      [Expr.dictE [some (Expr.const (ConstVal.str "B"))]
        [Expr.listE [Expr.const (ConstVal.intVal 1)]]]
      [])

/-- The full C7 counterexample program. -/
def c7prog : List Stmt :=
  [c7s1, c7s2, c7s3]

/-- C7 counterexample: tracked column sets are not non-decreasing across
statements. On the concrete program
the pandas import as pd / df = pd.DataFrame with column A /
df = pd.DataFrame with column B,
after the first two statements the tracker of df holds column A, but
visiting the third statement (a re-creation of df by a constructor call,
which _try_create_dataframe handles by replacing the tracker wholesale with
Tracker.new_with_columns) leaves a tracker that no longer holds column A;
the full run confirms the final tracker lost column A. This refutes the
claim as stated, which asserts that no statement, in particular no
re-creation by a constructor call, ever removes a column. -/
theorem claim_C7_counterexample :
    ∃ st2 st3 st3full tr2 tr3 tr3full,
      Checker.check [c7s1, c7s2] = Except.ok st2 ∧
      dictGet st2.dfs "df" = some tr2 ∧
      dictMem tr2.columns "A" = true ∧
      run (fuelFor c7prog) st2 (VTask.stmt c7s3) = Except.ok st3 ∧
      dictGet st3.dfs "df" = some tr3 ∧
      dictMem tr3.columns "A" = false ∧
      Checker.check c7prog = Except.ok st3full ∧
      dictGet st3full.dfs "df" = some tr3full ∧
      dictMem tr3full.columns "A" = false :=
  ⟨_, _, _, _, _, _, rfl, rfl, rfl, rfl, rfl, rfl, rfl, rfl, rfl⟩

/-- Looking up the key just set yields the new value. -/
theorem dictGet_dictSet_self {A : Type} (m : List (String × A)) (k : String)
    (v : A) : dictGet (dictSet m k v) k = some v := by
  induction m with
  | nil => simp [dictSet, dictGet]
  | cons p tl ih =>
      obtain ⟨pk, pv⟩ := p
      by_cases h : pk = k
      · simp [dictSet, dictGet, h]
      · simp [dictSet, dictGet, h, ih]

/-- Setting one key leaves lookups of other keys unchanged. -/
theorem dictGet_dictSet_ne {A : Type} (m : List (String × A)) (k c : String)
    (v : A) (h : c ≠ k) : dictGet (dictSet m k v) c = dictGet m c := by
  have hkc : ¬ k = c := fun hk => h hk.symm
  induction m with
  | nil => simp [dictSet, dictGet, hkc]
  | cons p tl ih =>
      obtain ⟨pk, pv⟩ := p
      by_cases hp : pk = k
      · subst hp
        simp [dictSet, dictGet, hkc]
      · by_cases hc : pk = c
        · simp [dictSet, dictGet, hp, hc, hkc, h]
        · simp [dictSet, dictGet, hp, hc, ih]

/-- A hit in the front dictionary survives appending. -/
theorem dictGet_append_of_some {A : Type} {m1 : List (String × A)}
    {c : String} {v : A} (m2 : List (String × A))
    (h : dictGet m1 c = some v) : dictGet (m1 ++ m2) c = some v := by
  induction m1 with
  | nil => simp [dictGet] at h
  | cons p tl ih =>
      obtain ⟨pk, pv⟩ := p
      by_cases hp : pk = c
      · simp [dictGet, hp] at h ⊢
        exact h
      · simp only [List.cons_append, dictGet, if_neg hp] at h ⊢
        exact ih h

/-- A miss in the front dictionary defers to the back dictionary. -/
theorem dictGet_append_of_none {A : Type} {m1 : List (String × A)}
    {c : String} (m2 : List (String × A))
    (h : dictGet m1 c = none) : dictGet (m1 ++ m2) c = dictGet m2 c := by
  induction m1 with
  | nil => simp
  | cons p tl ih =>
      obtain ⟨pk, pv⟩ := p
      by_cases hp : pk = c
      · simp [dictGet, hp] at h
      · simp only [dictGet, if_neg hp] at h
        simp only [List.cons_append, dictGet, if_neg hp]
        exact ih h

/-- Membership after a single set insertion. -/
theorem setAdd_mem (l : List String) (y x : String) :
    x ∈ setAdd l y ↔ x ∈ l ∨ x = y := by
  unfold setAdd
  by_cases h : y ∈ l
  · simp only [if_pos h]
    constructor
    · exact Or.inl
    · rintro (hx | rfl)
      · exact hx
      · exact h
  · simp [if_neg h]

/-- Membership after a set union. -/
theorem setUnion_mem (l xs : List String) (x : String) :
    x ∈ setUnion l xs ↔ x ∈ l ∨ x ∈ xs := by
  induction xs generalizing l with
  | nil => simp [setUnion]
  | cons y ys ih =>
      unfold setUnion at ih ⊢
      simp only [List.foldl_cons]
      rw [ih (setAdd l y), setAdd_mem]
      constructor
      · rintro ((hl | rfl) | hy)
        · exact Or.inl hl
        · exact Or.inr (List.mem_cons_self _ _)
        · exact Or.inr (List.mem_cons_of_mem _ hy)
      · rintro (hl | hy)
        · exact Or.inl (Or.inl hl)
        · rcases List.mem_cons.mp hy with rfl | hy2
          · exact Or.inl (Or.inr rfl)
          · exact Or.inr hy2

/-- Specification of Tracker.try_add on a strict tracker with an explicit
dependency list, as asserted by the specification: a failing call returns
exactly the absent dependencies, in order, and leaves the column map
untouched; a succeeding call requires every dependency present, inserts the
column, unions the dependencies into its dependency set and leaves every
other column unchanged. -/
def TryAddSpec (tr : Tracker) (col : String) (deps : List String) : Prop :=
  match tr.tryAdd col (DepArg.many deps) with
  | (some missing, tr2) =>
      missing = deps.filter (fun d => !dictMem tr.columns d) ∧
      missing ≠ [] ∧
      tr2 = tr
  | (none, tr2) =>
      (∀ d ∈ deps, dictMem tr.columns d = true) ∧
      dictMem tr2.columns col = true ∧
      (∀ x, x ∈ (dictGet tr2.columns col).getD [] ↔
        x ∈ (dictGet tr.columns col).getD [] ∨ x ∈ deps) ∧
      (∀ c, c ≠ col → dictGet tr2.columns c = dictGet tr.columns c)

/-- C3: on every strict tracker, try_add with a non-empty dependency list
either fails, returning exactly the absent dependencies with the column map
completely unchanged, or succeeds with every dependency present, inserting
the column with those dependencies (unioned into any previous dependency
set) and touching no other column. -/
theorem claim_C3 (tr : Tracker) (col : String) (deps : List String)
    (hs : tr.mode = Mode.strict) (_hne : deps ≠ []) :
    TryAddSpec tr col deps := by
  unfold TryAddSpec Tracker.tryAdd
  simp only [hs, if_pos rfl, DepArg.toList]
  by_cases hm : deps.filter (fun d => !dictMem tr.columns d) = []
  · simp only [hm, if_pos rfl]
    refine ⟨?_, ?_, ?_, ?_⟩
    · intro d hd
      have := List.filter_eq_nil_iff.mp hm d hd
      simpa using this
    · unfold Tracker.addWithDeps
      simp only [dictMem]
      rw [dictGet_dictSet_self]
      rfl
    · intro x
      unfold Tracker.addWithDeps
      simp only []
      by_cases hc : dictMem tr.columns col = true
      · rw [if_pos hc, dictGet_dictSet_self]
        simp only [Option.getD_some]
        rw [setUnion_mem]
      · rw [if_neg hc, dictGet_dictSet_self]
        simp only [Option.getD_some]
        have hnone : dictGet tr.columns col = none := by
          unfold dictMem at hc
          cases h : dictGet tr.columns col with
          | none => rfl
          | some v => rw [h] at hc; simp at hc
        rw [dictGet_append_of_none [(col, [])] hnone]
        simp only [dictGet, if_pos rfl, Option.getD_some]
        rw [hnone]
        simp only [Option.getD_none, List.not_mem_nil, false_or]
        rw [setUnion_mem]
        simp
    · intro c hcne
      unfold Tracker.addWithDeps
      simp only []
      rw [dictGet_dictSet_ne _ _ _ _ hcne]
      by_cases hc : dictMem tr.columns col = true
      · rw [if_pos hc]
      · rw [if_neg hc]
        have hnone : dictGet tr.columns col = none := by
          unfold dictMem at hc
          cases h : dictGet tr.columns col with
          | none => rfl
          | some v => rw [h] at hc; simp at hc
        cases h2 : dictGet tr.columns c with
        | none =>
            rw [dictGet_append_of_none [(col, [])] h2]
            have : ¬ col = c := fun h => hcne h.symm
            simp [dictGet, this, h2]
        | some v => rw [dictGet_append_of_some [(col, [])] h2]
  · simp only [hm, if_neg hm]
    exact ⟨rfl, hm, rfl⟩

/-- Witness for C3: a concrete strict tracker with column A, written with
the dependency list containing A and the absent Z; the hypotheses hold and
the specification follows by the theorem. -/
theorem claim_C3_witness :
    (Tracker.newWithColumns "df" ["A"]).mode = Mode.strict ∧
    (["A", "Z"] : List String) ≠ [] ∧
    TryAddSpec (Tracker.newWithColumns "df" ["A"]) "C" ["A", "Z"] :=
  ⟨rfl, by decide, claim_C3 (Tracker.newWithColumns "df" ["A"]) "C" ["A", "Z"]
    rfl (by decide)⟩

/-- Left-to-right leaves of a binary-operation tree: operands that are not
themselves BinOp nodes, in source order. -/
def binLeaves : Expr → List Expr
  | Expr.binOp l r => binLeaves l ++ binLeaves r
  | e => [e]

/-- A node that the is_binop guard rejects is its own single leaf. -/
theorem binLeaves_of_asBinop_none {e : Expr} (h : asBinop e = none) :
    binLeaves e = [e] := by
  cases e <;> first | rfl | simp [asBinop] at h

/-- Every embedded expression has at least one node. -/
theorem exprSize_pos (e : Expr) : 1 ≤ exprSize e := by
  cases e <;> simp [exprSize] <;> omega

/-- Total node count of an extractor stack. -/
def stackNodes : List Expr → Nat
  | [] => 0
  | e :: rest => exprSize e + stackNodes rest

/-- Leaves pending on an extractor stack, in the order the stack walk will
consume them: for each stack entry from the top, its leaves reversed. -/
def stackLeaves : List Expr → List Expr
  | [] => []
  | e :: rest => (binLeaves e).reverse ++ stackLeaves rest

/-- Inversion of the is_binop guard. -/
theorem asBinop_eq_some {n l r : Expr} (h : asBinop n = some (l, r)) :
    n = Expr.binOp l r := by
  cases n <;> simp [asBinop] at h
  rw [h.1, h.2]

/-- All-or-nothing map over the option monad (explicit recursion, used to
state the binop extractor contract). -/
def mapMRefs (f : Expr → Option ColumnRef) : List Expr → Option (List ColumnRef)
  | [] => some []
  | x :: xs =>
      match f x with
      | none => none
      | some r =>
          match mapMRefs f xs with
          | none => none
          | some rs => some (r :: rs)

/-- mapMRefs fails exactly when the function fails on a member. -/
theorem mapMRefs_eq_none_iff (f : Expr → Option ColumnRef) (l : List Expr) :
    mapMRefs f l = none ↔ ∃ x ∈ l, f x = none := by
  induction l with
  | nil => simp [mapMRefs]
  | cons x xs ih =>
      unfold mapMRefs
      cases hx : f x with
      | none =>
          constructor
          · intro _
            exact ⟨x, List.mem_cons_self x xs, hx⟩
          · intro _
            rfl
      | some r =>
          cases hxs : mapMRefs f xs with
          | none =>
              constructor
              · intro _
                obtain ⟨y, hy, hf⟩ := ih.mp hxs
                exact ⟨y, List.mem_cons_of_mem _ hy, hf⟩
              · intro _
                rfl
          | some rs =>
              constructor
              · intro h
                simp at h
              · rintro ⟨y, hy, hf⟩
                rcases List.mem_cons.mp hy with rfl | hy2
                · rw [hx] at hf
                  simp at hf
                · have h2 := ih.mpr ⟨y, hy2, hf⟩
                  rw [hxs] at h2
                  simp at h2

/-- mapMRefs distributes over append. -/
theorem mapMRefs_append (f : Expr → Option ColumnRef) (l1 l2 : List Expr) :
    mapMRefs f (l1 ++ l2) =
      match mapMRefs f l1 with
      | none => none
      | some r1 =>
          match mapMRefs f l2 with
          | none => none
          | some r2 => some (r1 ++ r2) := by
  induction l1 with
  | nil => cases h2 : mapMRefs f l2 <;> simp [mapMRefs, h2]
  | cons x xs ih =>
      cases hx : f x with
      | none => simp [mapMRefs, hx]
      | some r =>
          cases hxs : mapMRefs f xs with
          | none =>
              rw [hxs] at ih
              simp [mapMRefs, hx, hxs, ih]
          | some rs =>
              rw [hxs] at ih
              cases h2 : mapMRefs f l2 <;>
                rw [h2] at ih <;>
                simp [mapMRefs, hx, hxs, h2, ih]

/-- The stack walk computes, relative to the accumulated references, the
all-or-nothing map of extract_single_column_ref over the pending leaves in
consumption order, for any fuel at least the node count of the stack. -/
theorem binopGo_spec (fuel : Nat) :
    ∀ (stack : List Expr) (acc : List ColumnRef),
      stackNodes stack ≤ fuel →
      binopGo fuel stack acc =
        (mapMRefs extractSingleColumnRef (stackLeaves stack)).map
          (fun xs => acc ++ xs) := by
  induction fuel with
  | zero =>
      intro stack acc h
      cases stack with
      | nil => simp [binopGo, stackLeaves, mapMRefs]
      | cons e rest =>
          exfalso
          have := exprSize_pos e
          simp [stackNodes] at h
          omega
  | succ fuel ih =>
      intro stack acc h
      cases stack with
      | nil => simp [binopGo, stackLeaves, mapMRefs]
      | cons n rest =>
          cases hb : asBinop n with
          | some lr =>
              obtain ⟨l, r⟩ := lr
              have hn := asBinop_eq_some hb
              subst hn
              have hsz : stackNodes (r :: l :: rest) ≤ fuel := by
                simp only [stackNodes, exprSize] at h ⊢
                omega
              simp only [binopGo, asBinop]
              rw [ih _ acc hsz]
              have hsl : stackLeaves (r :: l :: rest) =
                  stackLeaves (Expr.binOp l r :: rest) := by
                simp [stackLeaves, binLeaves, List.reverse_append,
                  List.append_assoc]
              rw [hsl]
          | none =>
              have hleaf := binLeaves_of_asBinop_none hb
              have hsz : stackNodes rest ≤ fuel := by
                have := exprSize_pos n
                simp only [stackNodes] at h
                omega
              simp only [binopGo, hb]
              cases hx : extractSingleColumnRef n with
              | none =>
                  simp [stackLeaves, hleaf, mapMRefs, hx]
              | some ref =>
                  refine Eq.trans
                    (show _ = binopGo fuel rest (acc ++ [ref]) from rfl) ?_
                  rw [ih rest (acc ++ [ref]) hsz]
                  have hsl : stackLeaves (n :: rest) = n :: stackLeaves rest := by
                    simp [stackLeaves, hleaf]
                  rw [hsl]
                  cases hL : mapMRefs extractSingleColumnRef (stackLeaves rest) with
                  | none => simp [mapMRefs, hx, hL]
                  | some xs => simp [mapMRefs, hx, hL]

/-- A binary-operation tree always has at least one leaf. -/
theorem binLeaves_ne_nil (e : Expr) : binLeaves e ≠ [] := by
  induction e using binLeaves.induct with
  | case1 l r ihl ihr =>
      rw [binLeaves]
      exact fun h => ihl (List.append_eq_nil.mp h).1
  | case2 e h =>
      rw [binLeaves_of_asBinop_none]
      · exact List.cons_ne_nil e []
      · cases e <;> first | rfl | exact absurd rfl (h _ _)

/-- A successful all-or-nothing map over a non-empty list is non-empty. -/
theorem mapMRefs_cons_ne_nil (f : Expr → Option ColumnRef) (x : Expr)
    (xs : List Expr) (refs : List ColumnRef)
    (h : mapMRefs f (x :: xs) = some refs) : refs ≠ [] := by
  unfold mapMRefs at h
  cases hx : f x with
  | none => rw [hx] at h; cases h
  | some r =>
      rw [hx] at h
      cases hxs : mapMRefs f xs with
      | none => rw [hxs] at h; cases h
      | some rs =>
          rw [hxs] at h
          injection h with h2
          rw [← h2]
          exact List.cons_ne_nil r rs

/-- C4: on every binary-operation tree, the binop extractor equals the
all-or-nothing map of extract_single_column_ref over the leaves in the
traversal order of the iterative depth-first walk, which consumes the
reversed left-to-right leaf list (the stack pops the right operand first);
consequently it returns None exactly when some leaf is not a recognized
single- or multi-column subscript reference, and otherwise one ColumnRef per
leaf, covering exactly the leaves in that order. -/
theorem claim_C4 (l r : Expr) :
    extractColumnRefsFromBinop (Expr.binOp l r) =
      mapMRefs extractSingleColumnRef ((binLeaves (Expr.binOp l r)).reverse) ∧
    (mapMRefs extractSingleColumnRef ((binLeaves (Expr.binOp l r)).reverse) =
        none ↔
      ∃ leaf ∈ binLeaves (Expr.binOp l r),
        extractSingleColumnRef leaf = none) := by
  constructor
  · have hunf : extractColumnRefsFromBinop (Expr.binOp l r) =
        (match binopGo (exprSize l + exprSize r) [l, r].reverse [] with
         | some refs => if refs = [] then none else some refs
         | none => none) := rfl
    rw [hunf]
    have hfuel : stackNodes ([l, r].reverse) ≤ exprSize l + exprSize r := by
      simp [stackNodes]
      omega
    rw [binopGo_spec (exprSize l + exprSize r) ([l, r].reverse) [] hfuel]
    have hsl : stackLeaves ([l, r].reverse) =
        (binLeaves (Expr.binOp l r)).reverse := by
      simp [stackLeaves, binLeaves, List.reverse_append]
    rw [hsl]
    have hcons : ∃ a as, (binLeaves (Expr.binOp l r)).reverse = a :: as := by
      cases hrev : (binLeaves (Expr.binOp l r)).reverse with
      | nil =>
          exact absurd (List.reverse_eq_nil_iff.mp hrev)
            (binLeaves_ne_nil (Expr.binOp l r))
      | cons a as => exact ⟨a, as, rfl⟩
    obtain ⟨a, as, hrev⟩ := hcons
    rw [hrev]
    cases hm : mapMRefs extractSingleColumnRef (a :: as) with
    | none => rfl
    | some refs =>
        have hne := mapMRefs_cons_ne_nil extractSingleColumnRef a as refs hm
        simp [hne]
  · rw [mapMRefs_eq_none_iff]
    simp [List.mem_reverse]

/-- The single-subscript extractor never returns an empty list. -/
theorem extractColumnRef_ne_some_nil (e : Expr) :
    extractColumnRef e ≠ some [] := by
  intro h
  unfold extractColumnRef at h
  split at h
  · split at h <;> try exact Option.noConfusion h
    · injection h with h2
      cases h2
    · split at h
      · split at h
        · exact Option.noConfusion h
        · injection h with h2
          cases h2
      · exact Option.noConfusion h
  · exact Option.noConfusion h

/-- The binop extractor never returns an empty list (the final truthiness
guard turns an empty collection into None). -/
theorem extractBinop_ne_some_nil (e : Expr) :
    extractColumnRefsFromBinop e ≠ some [] := by
  intro h
  unfold extractColumnRefsFromBinop at h
  split at h
  · split at h
    · split at h
      · exact Option.noConfusion h
      · injection h with h2
        simp_all
    · exact Option.noConfusion h
  · exact Option.noConfusion h

/-- A truthy optional list is a cons. -/
theorem truthyRefs_eq_true (o : Option (List ColumnRef))
    (h : truthyRefs o = true) : ∃ r rs, o = some (r :: rs) := by
  cases o with
  | none => simp [truthyRefs] at h
  | some refs =>
      cases refs with
      | nil => simp [truthyRefs] at h
      | cons r rs => exact ⟨r, rs, rfl⟩

/-- C9: extraction totality. The registry as a whole and each registered
extractor individually return either None or a non-empty list of
ColumnRef, never an empty list. -/
theorem claim_C9 (e : Expr) :
    (extractorExtract e = none ∨
      ∃ r rs, extractorExtract e = some (r :: rs)) ∧
    (extractColumnRef e = none ∨
      ∃ r rs, extractColumnRef e = some (r :: rs)) ∧
    (extractColumnRefsFromBinop e = none ∨
      ∃ r rs, extractColumnRefsFromBinop e = some (r :: rs)) := by
  have h1 : extractColumnRef e = none ∨
      ∃ r rs, extractColumnRef e = some (r :: rs) := by
    cases hc : extractColumnRef e with
    | none => exact Or.inl rfl
    | some refs =>
        cases refs with
        | nil => exact absurd hc (extractColumnRef_ne_some_nil e)
        | cons r rs => exact Or.inr ⟨r, rs, rfl⟩
  have h2 : extractColumnRefsFromBinop e = none ∨
      ∃ r rs, extractColumnRefsFromBinop e = some (r :: rs) := by
    cases hc : extractColumnRefsFromBinop e with
    | none => exact Or.inl rfl
    | some refs =>
        cases refs with
        | nil => exact absurd hc (extractBinop_ne_some_nil e)
        | cons r rs => exact Or.inr ⟨r, rs, rfl⟩
  refine ⟨?_, h1, h2⟩
  unfold extractorExtract
  by_cases ht1 : truthyRefs (extractColumnRef e) = true
  · obtain ⟨r, rs, hr⟩ := truthyRefs_eq_true _ ht1
    rw [if_pos ht1]
    exact Or.inr ⟨r, rs, hr⟩
  · rw [if_neg ht1]
    by_cases ht2 : truthyRefs (extractColumnRefsFromBinop e) = true
    · obtain ⟨r, rs, hr⟩ := truthyRefs_eq_true _ ht2
      rw [if_pos ht2]
      exact Or.inr ⟨r, rs, hr⟩
    · rw [if_neg ht2]
      exact Or.inl rfl

/-- Rewriting a key with the value it already holds leaves the dictionary
unchanged. -/
theorem dictSet_same {A : Type} (m : List (String × A)) (k : String) (v : A)
    (h : dictGet m k = some v) : dictSet m k v = m := by
  induction m with
  | nil => simp [dictGet] at h
  | cons p tl ih =>
      obtain ⟨pk, pv⟩ := p
      by_cases hp : pk = k
      · subst hp
        have hv : pv = v := by simpa [dictGet] using h
        subst hv
        simp [dictSet]
      · simp only [dictGet, if_neg hp] at h
        simp [dictSet, hp, ih h]

/-- Membership after a dictionary assignment. -/
theorem dictMem_dictSet {A : Type} (m : List (String × A)) (k c : String)
    (v : A) : dictMem (dictSet m k v) c = (dictMem m c || c == k) := by
  by_cases hc : c = k
  · subst hc
    simp [dictMem, dictGet_dictSet_self]
  · simp [dictMem, dictGet_dictSet_ne m k c v hc, hc]

/-- Membership in a tracker seeded by new_with_columns. -/
theorem newWithColumns_mem (id_ : String) (cols : List String) (c : String) :
    dictMem (Tracker.newWithColumns id_ cols).columns c = true ↔ c ∈ cols := by
  unfold Tracker.newWithColumns
  simp only []
  suffices h : ∀ (m : List (String × List String)),
      dictMem (cols.foldl (fun m2 c2 => dictSet m2 c2 []) m) c = true ↔
        dictMem m c = true ∨ c ∈ cols by
    rw [h []]
    simp [dictMem, dictGet]
  induction cols with
  | nil => intro m; simp
  | cons x xs ih =>
      intro m
      simp only [List.foldl_cons]
      rw [ih (dictSet m x [])]
      rw [dictMem_dictSet]
      constructor
      · rintro (h2 | h2)
        · rcases Bool.or_eq_true_iff.mp h2 with h3 | h3
          · exact Or.inl h3
          · exact Or.inr (by simp at h3; simp [h3])
        · exact Or.inr (List.mem_cons_of_mem _ h2)
      · rintro (h2 | h2)
        · exact Or.inl (by simp [h2])
        · rcases List.mem_cons.mp h2 with rfl | h3
          · exact Or.inl (by simp)
          · exact Or.inr h3

/-- Expressions whose visit is a no-op: names, constants and lists of names
and constants have no subscripts anywhere, so generic_visit leaves the
checker state untouched. -/
def inertB : Expr → Bool
  | Expr.name _ _ => true
  | Expr.const _ => true
  | Expr.listE elts =>
      elts.all (fun x =>
        match x with
        | Expr.name _ _ => true
        | Expr.const _ => true
        | _ => false)
  | _ => false

/-- Visiting the empty child list returns the state unchanged. -/
theorem run_exprs_nil (fuel : Nat) (s s2 : CState)
    (h : run fuel s (VTask.exprs []) = Except.ok s2) : s2 = s := by
  cases fuel with
  | zero => simp [run] at h
  | succ fuel =>
      simp only [run] at h
      injection h with h2
      exact h2.symm

/-- Visiting an inert expression, or a list of inert expressions, leaves the
state unchanged. -/
theorem run_inert (fuel : Nat) :
    ∀ (s : CState),
      (∀ e s2, inertB e = true →
        run fuel s (VTask.expr e) = Except.ok s2 → s2 = s) ∧
      (∀ l s2, l.all inertB = true →
        run fuel s (VTask.exprs l) = Except.ok s2 → s2 = s) := by
  induction fuel with
  | zero =>
      intro s
      constructor
      · intro e s2 _ h
        simp [run] at h
      · intro l s2 _ h
        simp [run] at h
  | succ fuel ih =>
      intro s
      constructor
      · intro e s2 hin h
        cases e with
        | name p i =>
            exact run_exprs_nil fuel s s2 h
        | const v =>
            exact run_exprs_nil fuel s s2 h
        | listE elts =>
            refine (ih s).2 elts s2 ?_ h
            simp only [inertB] at hin
            rw [List.all_eq_true] at hin ⊢
            intro x hx
            have := hin x hx
            cases x <;> simp [inertB] at this ⊢
        | dictE ks vs => exact Bool.noConfusion hin
        | subscript nid p v sl => exact Bool.noConfusion hin
        | binOp a b => exact Bool.noConfusion hin
        | attr v a => exact Bool.noConfusion hin
        | call f a k => exact Bool.noConfusion hin
      · intro l s2 hall h
        cases l with
        | nil => exact run_exprs_nil (fuel + 1) s s2 h
        | cons e rest =>
            simp only [run] at h
            cases he : run fuel s (VTask.expr e) with
            | error msg =>
                rw [he] at h
                exact Except.noConfusion h
            | ok s1 =>
                rw [he] at h
                simp only [List.all_cons, Bool.and_eq_true] at hall
                have h1 := (ih s).1 e s1 hall.1 he
                subst h1
                exact (ih s1).2 rest s2 hall.2 h

/-- A successful all-strings parse means every element is a string
constant. -/
theorem parseStrListElts_all (elts : List Expr) (xs : List String)
    (h : parseStrListElts elts = some xs) :
    elts.all (fun x =>
      match x with
      | Expr.const (ConstVal.str _) => true
      | _ => false) = true := by
  induction elts generalizing xs with
  | nil => simp
  | cons e rest ih =>
      cases e with
      | const cv =>
          cases cv with
          | str s =>
              simp only [parseStrListElts] at h
              cases hr : parseStrListElts rest with
              | none =>
                  rw [hr] at h
                  exact Option.noConfusion h
              | some ys =>
                  simp only [List.all_cons, Bool.and_eq_true]
                  exact ⟨by simp, ih ys hr⟩
          | intVal n => exact Option.noConfusion h
          | otherVal => exact Option.noConfusion h
      | name p i => exact Option.noConfusion h
      | listE l => exact Option.noConfusion h
      | dictE a b => exact Option.noConfusion h
      | subscript a b c d => exact Option.noConfusion h
      | binOp a b => exact Option.noConfusion h
      | attr a b => exact Option.noConfusion h
      | call a b c => exact Option.noConfusion h

/-- Unfolding of the extractor on a list-sliced subscript over a Name. -/
theorem extractSingle_listE_eq (nid : Nat) (pos npos : Pos) (dfid : String)
    (elts : List Expr) :
    extractSingleColumnRef
        (Expr.subscript nid pos (Expr.name npos dfid) (Expr.listE elts)) =
      (match parseStrListElts elts with
       | some colNames =>
           if colNames = [] then none
           else some ⟨nid, pos, npos, dfid, colNames⟩
       | none => none) := by
  cases hp : parseStrListElts elts with
  | none => simp [extractSingleColumnRef, extractColumnRef, hp]
  | some cn =>
      by_cases hcn : cn = [] <;>
        simp [extractSingleColumnRef, extractColumnRef, hp, hcn]

/-- The operands of a recognized subscript reference are inert: the value is
a Name and the slice is a string constant or a list of string constants. -/
theorem extractRef_operands_inert (nid : Nat) (pos : Pos) (v sl : Expr)
    (ref : ColumnRef)
    (h : extractSingleColumnRef (Expr.subscript nid pos v sl) = some ref) :
    inertB v = true ∧ inertB sl = true := by
  cases v with
  | name npos dfid =>
      refine ⟨rfl, ?_⟩
      cases sl with
      | const cv => cases cv <;> rfl
      | listE elts =>
          rw [extractSingle_listE_eq] at h
          cases hp : parseStrListElts elts with
          | none =>
              rw [hp] at h
              exact Option.noConfusion h
          | some colNames =>
              have hall := parseStrListElts_all elts colNames hp
              simp only [inertB]
              rw [List.all_eq_true] at hall ⊢
              intro x hx
              have hcx := hall x hx
              cases x with
              | const cv => cases cv <;> rfl
              | name a b => rfl
              | listE a => exact Bool.noConfusion hcx
              | dictE a b => exact Bool.noConfusion hcx
              | subscript a b c d => exact Bool.noConfusion hcx
              | binOp a b => exact Bool.noConfusion hcx
              | attr a b => exact Bool.noConfusion hcx
              | call a b c => exact Bool.noConfusion hcx
      | name a b => exact Option.noConfusion h
      | dictE a b => exact Option.noConfusion h
      | subscript a b c d => exact Option.noConfusion h
      | binOp a b => exact Option.noConfusion h
      | attr a b => exact Option.noConfusion h
      | call a b c => exact Option.noConfusion h
  | const cv => exact Option.noConfusion h
  | listE a => exact Option.noConfusion h
  | dictE a b => exact Option.noConfusion h
  | subscript a b c d => exact Option.noConfusion h
  | binOp a b => exact Option.noConfusion h
  | attr a b => exact Option.noConfusion h
  | call a b c => exact Option.noConfusion h

/-- C10: a multi-column subscript read that is not an assignment target
produces no diagnostic and leaves the checker state entirely unchanged, even
when the frame is tracked and the listed columns are absent from its schema:
visit_Subscript validates only single-column references. -/
theorem claim_C10 (fuel : Nat) (s : CState) (nid : Nat) (pos : Pos)
    (v sl : Expr) (ref : ColumnRef) (s2 : CState)
    (hskip : nid ∉ s.skip)
    (href : extractSingleColumnRef (Expr.subscript nid pos v sl) = some ref)
    (htracked : (dictGet s.dfs ref.dfName).isSome = true)
    (hmulti : ref.colNames.length ≠ 1)
    (hrun : run fuel s (VTask.expr (Expr.subscript nid pos v sl)) =
      Except.ok s2) :
    s2 = s := by
  cases fuel with
  | zero => simp [run] at hrun
  | succ fuel =>
      obtain ⟨tracker, htr⟩ := Option.isSome_iff_exists.mp htracked
      simp only [run] at hrun
      rw [if_neg hskip, href] at hrun
      simp only [htr, if_pos hmulti] at hrun
      obtain ⟨hv, hsl⟩ := extractRef_operands_inert nid pos v sl ref href
      refine (run_inert fuel s).2 [v, sl] s2 ?_ hrun
      simp [hv, hsl]

/-- Concrete state for the C10 witness: a tracked frame df with the single
column A. -/
def c10state : CState :=
  { skip := [], diagnostics := []
    dfs := [("df", Tracker.newWithColumns "df" ["A"])]
    pandasAliases := ["pd"], definitions := [] }

/-- Concrete multi-column read for the C10 witness: df[["B", "C"]] with both
columns absent from the schema of df. -/
def c10node : Expr :=
  Expr.subscript 1 ⟨3, 0, 3, 16⟩ (Expr.name ⟨3, 0, 3, 2⟩ "df")
    (Expr.listE [Expr.const (ConstVal.str "B"), Expr.const (ConstVal.str "C")])

/-- The reference the extractor returns for the C10 witness node. -/
def c10ref : ColumnRef :=
  ⟨1, ⟨3, 0, 3, 16⟩, ⟨3, 0, 3, 2⟩, "df", ["B", "C"]⟩

/-- The state after visiting the C10 witness node. -/
def c10result : CState :=
  ((run 10 c10state (VTask.expr c10node)).toOption).getD initState

/-- Witness for C10 at a concrete input: the multi-column read df[["B","C"]]
on a frame holding only column A is extracted as a two-column reference on a
tracked frame, and visiting it leaves the state unchanged (in particular no
diagnostic is appended). -/
theorem claim_C10_witness :
    (1 : Nat) ∉ c10state.skip ∧
    extractSingleColumnRef c10node = some c10ref ∧
    (dictGet c10state.dfs c10ref.dfName).isSome = true ∧
    c10ref.colNames.length ≠ 1 ∧
    c10result = c10state :=
  ⟨by decide, rfl, rfl, by decide,
    claim_C10 10 c10state 1 ⟨3, 0, 3, 16⟩ (Expr.name ⟨3, 0, 3, 2⟩ "df")
      (Expr.listE [Expr.const (ConstVal.str "B"), Expr.const (ConstVal.str "C")])
      c10ref c10result (by decide) rfl rfl (by decide) rfl⟩

/-- A successful dictionary lookup is a membership. -/
theorem dictGet_mem {A : Type} (m : List (String × A)) (k : String) (v : A)
    (h : dictGet m k = some v) : (k, v) ∈ m := by
  induction m with
  | nil => simp [dictGet] at h
  | cons p tl ih =>
      obtain ⟨pk, pv⟩ := p
      by_cases hp : pk = k
      · subst hp
        have hv : pv = v := by simpa [dictGet] using h
        subst hv
        exact List.mem_cons_self _ _
      · simp only [dictGet, if_neg hp] at h
        exact List.mem_cons_of_mem _ (ih h)

/-- Every tracker of the checker is strict (the checker only ever creates
trackers through new_with_columns). -/
def allStrict (dfs : List (String × Tracker)) : Bool :=
  dfs.all (fun p => p.2.mode == Mode.strict)

/-- A looked-up tracker in an all-strict map is strict. -/
theorem allStrict_lookup (dfs : List (String × Tracker)) (k : String)
    (tr : Tracker) (hall : allStrict dfs = true)
    (h : dictGet dfs k = some tr) : tr.mode = Mode.strict := by
  have hmem := dictGet_mem dfs k tr h
  unfold allStrict at hall
  rw [List.all_eq_true] at hall
  have := hall (k, tr) hmem
  simpa using this

/-- Strict try_get never mutates the tracker. -/
theorem tryGet_strict (tr : Tracker) (c : String)
    (h : tr.mode = Mode.strict) : (tr.tryGet c).2 = tr := by
  unfold Tracker.tryGet
  by_cases hm : dictMem tr.columns c = true
  · simp [hm]
  · simp [hm, h]

/-- Visiting any expression, or any list of expressions, with every tracker
strict leaves the tracker map unchanged (visit_Subscript only reads from
strict trackers and only appends diagnostics). -/
theorem run_expr_dfs (fuel : Nat) :
    ∀ (s : CState), allStrict s.dfs = true →
      (∀ e s2, run fuel s (VTask.expr e) = Except.ok s2 → s2.dfs = s.dfs) ∧
      (∀ l s2, run fuel s (VTask.exprs l) = Except.ok s2 → s2.dfs = s.dfs) := by
  induction fuel with
  | zero =>
      intro s _
      exact ⟨fun e s2 h => by simp [run] at h,
        fun l s2 h => by simp [run] at h⟩
  | succ fuel ih =>
      intro s hall
      constructor
      · intro e s2 h
        cases e with
        | subscript nid pos v sl =>
            simp only [run] at h
            by_cases hskip : nid ∈ s.skip
            · rw [if_pos hskip] at h
              exact (ih s hall).2 [v, sl] s2 h
            · rw [if_neg hskip] at h
              cases href : extractSingleColumnRef (Expr.subscript nid pos v sl) with
              | none =>
                  rw [href] at h
                  exact (ih s hall).2 [v, sl] s2 h
              | some ref =>
                  rw [href] at h
                  cases htr : dictGet s.dfs ref.dfName with
                  | none =>
                      simp only [htr] at h
                      exact (ih s hall).2 [v, sl] s2 h
                  | some tracker =>
                      simp only [htr] at h
                      by_cases hlen : ref.colNames.length ≠ 1
                      · rw [if_pos hlen] at h
                        exact (ih s hall).2 [v, sl] s2 h
                      · rw [if_neg hlen] at h
                        have hmode := allStrict_lookup s.dfs ref.dfName tracker hall htr
                        have htr2 := tryGet_strict tracker (ref.colNames.headD "") hmode
                        have hset : dictSet s.dfs ref.dfName
                            (tracker.tryGet (ref.colNames.headD "")).2 = s.dfs := by
                          rw [htr2]
                          exact dictSet_same s.dfs ref.dfName tracker htr
                        cases hmiss : (tracker.tryGet (ref.colNames.headD "")).1 with
                        | some missingName =>
                            simp only [hmiss] at h
                            cases hwr : wrongRead missingName ref.pos ref.dfName
                                (((tracker.tryGet (ref.colNames.headD "")).2).columns.map
                                  Prod.fst) with
                            | error msg =>
                                rw [hwr] at h
                                exact Except.noConfusion h
                            | ok d =>
                                rw [hwr] at h
                                have hstrict2 : allStrict
                                    (dictSet s.dfs ref.dfName
                                      (tracker.tryGet (ref.colNames.headD "")).2) = true := by
                                  rw [hset]; exact hall
                                have h2 := ((ih _ hstrict2).2 [v, sl] s2 h)
                                rw [h2]
                                exact hset
                        | none =>
                            simp only [hmiss] at h
                            have hstrict2 : allStrict
                                (dictSet s.dfs ref.dfName
                                  (tracker.tryGet (ref.colNames.headD "")).2) = true := by
                              rw [hset]; exact hall
                            have h2 := ((ih _ hstrict2).2 [v, sl] s2 h)
                            rw [h2]
                            exact hset
        | name p i =>
            have := run_exprs_nil fuel s s2 h
            rw [this]
        | const v =>
            have := run_exprs_nil fuel s s2 h
            rw [this]
        | listE elts => exact (ih s hall).2 elts s2 h
        | dictE ks vs => exact (ih s hall).2 (ks.filterMap id ++ vs) s2 h
        | binOp a b => exact (ih s hall).2 [a, b] s2 h
        | attr a b => exact (ih s hall).2 [a] s2 h
        | call f args kws =>
            exact (ih s hall).2 (f :: args ++ kws.map Prod.snd) s2 h
      · intro l s2 h
        cases l with
        | nil =>
            have := run_exprs_nil (fuel + 1) s s2 h
            rw [this]
        | cons e rest =>
            simp only [run] at h
            cases he : run fuel s (VTask.expr e) with
            | error msg =>
                rw [he] at h
                exact Except.noConfusion h
            | ok s1 =>
                rw [he] at h
                have h1 := (ih s hall).1 e s1 he
                have hall1 : allStrict s1.dfs = true := by rw [h1]; exact hall
                have h2 := (ih s1 hall1).2 rest s2 h
                rw [h2, h1]

/-- Assigning a strict tracker into an all-strict map keeps it all
strict. -/
theorem allStrict_dictSet (m : List (String × Tracker)) (k : String)
    (tr : Tracker) (hall : allStrict m = true) (htr : tr.mode = Mode.strict) :
    allStrict (dictSet m k tr) = true := by
  unfold allStrict at hall ⊢
  rw [List.all_eq_true] at hall ⊢
  intro p hp
  induction m with
  | nil =>
      simp [dictSet] at hp
      rw [hp]
      simpa using htr
  | cons q tl ih =>
      obtain ⟨qk, qv⟩ := q
      by_cases hq : qk = k
      · subst hq
        simp only [dictSet, if_pos rfl] at hp
        rcases List.mem_cons.mp hp with rfl | hmem
        · simpa using htr
        · exact hall _ (List.mem_cons_of_mem _ hmem)
      · simp only [dictSet, if_neg hq] at hp
        rcases List.mem_cons.mp hp with rfl | hmem
        · exact hall _ (List.mem_cons_self _ _)
        · exact ih (fun p2 hp2 => hall p2 (List.mem_cons_of_mem _ hp2)) hmem

/-- Trackers seeded by new_with_columns are strict. -/
theorem newWithColumns_mode (id_ : String) (cols : List String) :
    (Tracker.newWithColumns id_ cols).mode = Mode.strict :=
  rfl

/-- C6: read_csv registration by usecols shape. For every assignment
x = pd.read_csv(..., usecols=U) with the pandas alias pd tracked and every
tracker strict: when U is a list literal of string constants the statement
registers a strict tracker for x holding exactly those strings; when U is a
single string constant it registers a one-column tracker; when U is a list
literal containing any element that is not a string constant (an all-integer
or mixed list in particular), no frame is registered for x (an untracked x
stays untracked). -/
theorem claim_C6 (fuel : Nat) (s s2 : CState) (x : String) (args : List Expr)
    (U : Expr) (xpos mpos : Pos)
    (hpd : "pd" ∈ s.pandasAliases)
    (hstrict : allStrict s.dfs = true)
    (hrun : run fuel s (VTask.stmt (Stmt.assign [Expr.name xpos x]
      (Expr.call (Expr.attr (Expr.name mpos "pd") "read_csv") args
        [(some "usecols", U)]))) = Except.ok s2) :
    (∀ elts ss, U = Expr.listE elts → parseStrListElts elts = some ss →
      ∃ tr, dictGet s2.dfs x = some tr ∧ tr.mode = Mode.strict ∧
        ∀ c, dictMem tr.columns c = true ↔ c ∈ ss) ∧
    (∀ u, U = Expr.const (ConstVal.str u) →
      ∃ tr, dictGet s2.dfs x = some tr ∧ tr.mode = Mode.strict ∧
        ∀ c, dictMem tr.columns c = true ↔ c = u) ∧
    (∀ elts, U = Expr.listE elts → parseStrListElts elts = none →
      dictGet s.dfs x = none → dictGet s2.dfs x = none) := by
  cases fuel with
  | zero => simp [run] at hrun
  | succ fuel =>
      have hkw : parseCallArgs args [(some "usecols", U)] s.definitions =
          (args.map getValue, [("usecols", getValue U)]) := by
        simp [parseCallArgs, dictSet]
      refine ⟨?_, ?_, ?_⟩
      · rintro elts ss rfl hparse
        have hval : getValue (Expr.listE elts) = Result.strList ss := by
          simp [getValue, hparse]
        have hcreate : tryCreateDataframe s [Expr.name xpos x]
            (Expr.call (Expr.attr (Expr.name mpos "pd") "read_csv") args
              [(some "usecols", Expr.listE elts)]) =
            some { s with dfs := dictSet s.dfs x (Tracker.newWithColumns x (setUnion [] (setUnion [] ss))) } := by
          simp [tryCreateDataframe, hkw, hpd, pdGetMethod, pdReadCsv,
            idxOrKey, dictGet, hval]
        simp only [run, hcreate] at hrun
        have hall1 : allStrict (dictSet s.dfs x
            (Tracker.newWithColumns x (setUnion [] (setUnion [] ss)))) = true :=
          allStrict_dictSet _ _ _ hstrict (newWithColumns_mode _ _)
        have hdfs := (run_expr_dfs fuel _ hall1).2 _ s2 hrun
        simp only at hdfs
        refine ⟨Tracker.newWithColumns x (setUnion [] (setUnion [] ss)), ?_, rfl, ?_⟩
        · rw [hdfs]
          exact dictGet_dictSet_self _ _ _
        · intro c
          rw [newWithColumns_mem]
          rw [setUnion_mem, setUnion_mem]
          simp
      · rintro u rfl
        have hcreate : tryCreateDataframe s [Expr.name xpos x]
            (Expr.call (Expr.attr (Expr.name mpos "pd") "read_csv") args
              [(some "usecols", Expr.const (ConstVal.str u))]) =
            some { s with dfs := dictSet s.dfs x (Tracker.newWithColumns x (setUnion [] [u])) } := by
          simp [tryCreateDataframe, hkw, hpd, pdGetMethod, pdReadCsv,
            idxOrKey, dictGet, getValue]
        simp only [run, hcreate] at hrun
        have hall1 : allStrict (dictSet s.dfs x
            (Tracker.newWithColumns x (setUnion [] [u]))) = true :=
          allStrict_dictSet _ _ _ hstrict (newWithColumns_mode _ _)
        have hdfs := (run_expr_dfs fuel _ hall1).2 _ s2 hrun
        simp only at hdfs
        refine ⟨Tracker.newWithColumns x (setUnion [] [u]), ?_, rfl, ?_⟩
        · rw [hdfs]
          exact dictGet_dictSet_self _ _ _
        · intro c
          rw [newWithColumns_mem, setUnion_mem]
          simp
      · rintro elts rfl hparse hnone
        have hval : getValue (Expr.listE elts) = Result.unknown := by
          simp [getValue, hparse]
        have hcreate : tryCreateDataframe s [Expr.name xpos x]
            (Expr.call (Expr.attr (Expr.name mpos "pd") "read_csv") args
              [(some "usecols", Expr.listE elts)]) = none := by
          simp [tryCreateDataframe, hkw, hpd, pdGetMethod, pdReadCsv,
            idxOrKey, dictGet, hval]
        have hmethod : tryDataframeMethod s [Expr.name xpos x]
            (Expr.call (Expr.attr (Expr.name mpos "pd") "read_csv") args
              [(some "usecols", Expr.listE elts)]) = none := by
          unfold tryDataframeMethod
          cases hdg : dictGet s.dfs "pd" with
          | none => simp [hdg]
          | some trPd => simp [hdg, dfGetMethod]
        simp only [run, hcreate, hmethod] at hrun
        have hsingle : extractSingleColumnRef (Expr.name xpos x) = none := rfl
        simp only [hsingle] at hrun
        have hdfs := (run_expr_dfs fuel { s with definitions := dictSet s.definitions x (getValue (Expr.call (Expr.attr (Expr.name mpos "pd") "read_csv") args [(some "usecols", Expr.listE elts)])) } hstrict).2 _ s2 hrun
        rw [hdfs]
        exact hnone

/-- Initial state of the C6 witness: pandas imported as pd, nothing else. -/
def c6state : CState :=
  { skip := [], diagnostics := [], dfs := [], pandasAliases := ["pd"]
    definitions := [] }

/-- The C6 witness statement: df = pd.read_csv("f.csv", usecols=["a", "b"]). -/
def c6stmt : Stmt :=
  Stmt.assign [Expr.name ⟨2, 0, 2, 2⟩ "df"]
    (Expr.call (Expr.attr (Expr.name ⟨2, 5, 2, 7⟩ "pd") "read_csv")
      [Expr.const (ConstVal.str "f.csv")]
      [(some "usecols",
        Expr.listE [Expr.const (ConstVal.str "a"), Expr.const (ConstVal.str "b")])])

/-- The state after the C6 witness statement. -/
def c6result : CState :=
  ((run 20 c6state (VTask.stmt c6stmt)).toOption).getD initState

/-- Witness for C6 at a concrete input: the list-of-strings usecols
registers a strict tracker for df with exactly the columns a and b. -/
theorem claim_C6_witness :
    "pd" ∈ c6state.pandasAliases ∧
    allStrict c6state.dfs = true ∧
    (∃ tr, dictGet c6result.dfs "df" = some tr ∧ tr.mode = Mode.strict ∧
      ∀ c, dictMem tr.columns c = true ↔ c ∈ ["a", "b"]) :=
  ⟨by decide, by decide,
    (claim_C6 20 c6state c6result "df" [Expr.const (ConstVal.str "f.csv")]
      (Expr.listE [Expr.const (ConstVal.str "a"), Expr.const (ConstVal.str "b")])
      ⟨2, 0, 2, 2⟩ ⟨2, 5, 2, 7⟩ (by decide) (by decide) rfl).1
      [Expr.const (ConstVal.str "a"), Expr.const (ConstVal.str "b")]
      ["a", "b"] rfl rfl⟩

/-- A column c is tracked for frame f in a tracker map. -/
def trackedCol (dfs : List (String × Tracker)) (f c : String) : Prop :=
  ∃ tr, dictGet dfs f = some tr ∧ dictMem tr.columns c = true

/-- Membership in the front dictionary survives appending. -/
theorem dictMem_append_left {A : Type} (m l : List (String × A)) (c : String)
    (h : dictMem m c = true) : dictMem (m ++ l) c = true := by
  unfold dictMem at h ⊢
  obtain ⟨v, hv⟩ := Option.isSome_iff_exists.mp h
  rw [dictGet_append_of_some l hv]
  rfl

/-- try_get only ever adds columns. -/
theorem tryGet_mono (tr : Tracker) (col c : String)
    (h : dictMem tr.columns c = true) :
    dictMem ((tr.tryGet col).2).columns c = true := by
  unfold Tracker.tryGet
  by_cases hm : dictMem tr.columns col = true
  · simpa [hm] using h
  · by_cases hs : tr.mode = Mode.strict
    · simpa [hm, hs] using h
    · simp only [hm, hs]
      simp only [Bool.false_eq_true, if_false, if_neg hs]
      rw [dictMem_dictSet]
      rw [h]
      rfl

/-- addWithDeps only ever adds columns. -/
theorem addWithDeps_mono (tr : Tracker) (col : String) (deps : List String)
    (c : String) (h : dictMem tr.columns c = true) :
    dictMem ((tr.addWithDeps col deps)).columns c = true := by
  unfold Tracker.addWithDeps
  simp only []
  rw [dictMem_dictSet]
  by_cases hm : dictMem tr.columns col = true
  · rw [if_pos hm, h]
    rfl
  · rw [if_neg hm, dictMem_append_left _ _ _ h]
    rfl

/-- try_add only ever adds columns, in every mode and for every dependency
argument. -/
theorem tryAdd_mono (tr : Tracker) (col : String) (d : DepArg) (c : String)
    (h : dictMem tr.columns c = true) :
    dictMem ((tr.tryAdd col d).2).columns c = true := by
  unfold Tracker.tryAdd
  cases d with
  | noDeps =>
      by_cases hm : dictMem tr.columns col = true
      · simpa [hm] using h
      · simp only [hm]
        simp only [Bool.false_eq_true, if_false]
        exact dictMem_append_left _ _ _ h
  | one dep =>
      by_cases hs : tr.mode = Mode.strict
      · simp only [hs, if_pos rfl]
        by_cases hmiss : ([dep].filter (fun d2 => !dictMem tr.columns d2)) = []
        · simp only [DepArg.toList, hmiss, if_pos rfl]
          exact addWithDeps_mono tr col [dep] c h
        · simpa [DepArg.toList, hmiss] using h
      · simp only [hs, if_neg hs]
        refine addWithDeps_mono _ col _ c ?_
        simp only []
        have hfold : ∀ (deps : List String) (cols : List (String × List String)),
            dictMem cols c = true →
            dictMem (deps.foldl (fun cs dep2 =>
              if dictMem cs dep2 then cs else cs ++ [(dep2, [])]) cols) c = true := by
          intro deps
          induction deps with
          | nil => intro cols hc; exact hc
          | cons dp rest ih =>
              intro cols hc
              simp only [List.foldl_cons]
              refine ih _ ?_
              by_cases hdp : dictMem cols dp = true
              · simpa [hdp] using hc
              · simp only [hdp]
                simp only [Bool.false_eq_true, if_false]
                exact dictMem_append_left _ _ _ hc
        exact hfold _ _ h
  | many deps =>
      by_cases hs : tr.mode = Mode.strict
      · simp only [hs, if_pos rfl]
        by_cases hmiss : (deps.filter (fun d2 => !dictMem tr.columns d2)) = []
        · simp only [DepArg.toList, hmiss, if_pos rfl]
          exact addWithDeps_mono tr col deps c h
        · simpa [DepArg.toList, hmiss] using h
      · simp only [hs, if_neg hs]
        refine addWithDeps_mono _ col _ c ?_
        simp only []
        have hfold : ∀ (deps2 : List String) (cols : List (String × List String)),
            dictMem cols c = true →
            dictMem (deps2.foldl (fun cs dep2 =>
              if dictMem cs dep2 then cs else cs ++ [(dep2, [])]) cols) c = true := by
          intro deps2
          induction deps2 with
          | nil => intro cols hc; exact hc
          | cons dp rest ih =>
              intro cols hc
              simp only [List.foldl_cons]
              refine ih _ ?_
              by_cases hdp : dictMem cols dp = true
              · simpa [hdp] using hc
              · simp only [hdp]
                simp only [Bool.false_eq_true, if_false]
                exact dictMem_append_left _ _ _ hc
        exact hfold _ _ h

/-- A fold of column-adding steps only ever adds columns. -/
theorem foldl_mem_mono (g : Tracker → String → Tracker)
    (hg : ∀ tr x c, dictMem tr.columns c = true →
      dictMem (g tr x).columns c = true)
    (l : List String) (tr : Tracker) (c : String)
    (h : dictMem tr.columns c = true) :
    dictMem ((l.foldl g tr)).columns c = true := by
  induction l generalizing tr with
  | nil => exact h
  | cons x rest ih => exact ih (g tr x) (hg tr x c h)

/-- Replacing the tracker of one frame with a superset tracker preserves
every tracked column of every frame. -/
theorem trackedCol_dictSet (dfs : List (String × Tracker)) (nm : String)
    (tr1 tr2 : Tracker) (hget : dictGet dfs nm = some tr1)
    (hmono : ∀ c2, dictMem tr1.columns c2 = true →
      dictMem tr2.columns c2 = true)
    (f c : String) (h : trackedCol dfs f c) :
    trackedCol (dictSet dfs nm tr2) f c := by
  obtain ⟨tr, htr, hmem⟩ := h
  by_cases hf : f = nm
  · subst hf
    rw [hget] at htr
    injection htr with htr
    subst htr
    exact ⟨tr2, dictGet_dictSet_self _ _ _, hmono c hmem⟩
  · exact ⟨tr, by rw [dictGet_dictSet_ne _ _ _ _ hf]; exact htr, hmem⟩

/-- Visiting any expression, or any list of expressions, never removes a
tracked column from any frame: subscript reads only pass the columns through
try_get, which at most adds. -/
theorem run_expr_mono (fuel : Nat) :
    ∀ (s : CState),
      (∀ e s2, run fuel s (VTask.expr e) = Except.ok s2 →
        ∀ f c, trackedCol s.dfs f c → trackedCol s2.dfs f c) ∧
      (∀ l s2, run fuel s (VTask.exprs l) = Except.ok s2 →
        ∀ f c, trackedCol s.dfs f c → trackedCol s2.dfs f c) := by
  induction fuel with
  | zero =>
      intro s
      exact ⟨fun e s2 h => by simp [run] at h,
        fun l s2 h => by simp [run] at h⟩
  | succ fuel ih =>
      intro s
      constructor
      · intro e s2 h f c hc
        cases e with
        | subscript nid pos v sl =>
            simp only [run] at h
            by_cases hskip : nid ∈ s.skip
            · rw [if_pos hskip] at h
              exact (ih s).2 [v, sl] s2 h f c hc
            · rw [if_neg hskip] at h
              cases href : extractSingleColumnRef (Expr.subscript nid pos v sl) with
              | none =>
                  rw [href] at h
                  exact (ih s).2 [v, sl] s2 h f c hc
              | some ref =>
                  rw [href] at h
                  cases htr : dictGet s.dfs ref.dfName with
                  | none =>
                      simp only [htr] at h
                      exact (ih s).2 [v, sl] s2 h f c hc
                  | some tracker =>
                      simp only [htr] at h
                      by_cases hlen : ref.colNames.length ≠ 1
                      · rw [if_pos hlen] at h
                        exact (ih s).2 [v, sl] s2 h f c hc
                      · rw [if_neg hlen] at h
                        have hstep : trackedCol (dictSet s.dfs ref.dfName
                            (tracker.tryGet (ref.colNames.headD "")).2) f c :=
                          trackedCol_dictSet s.dfs ref.dfName tracker _ htr
                            (fun c2 hc2 => tryGet_mono tracker _ c2 hc2) f c hc
                        cases hmiss : (tracker.tryGet (ref.colNames.headD "")).1 with
                        | some missingName =>
                            simp only [hmiss] at h
                            cases hwr : wrongRead missingName ref.pos ref.dfName
                                (((tracker.tryGet (ref.colNames.headD "")).2).columns.map
                                  Prod.fst) with
                            | error msg =>
                                rw [hwr] at h
                                exact Except.noConfusion h
                            | ok d =>
                                rw [hwr] at h
                                exact (ih _).2 [v, sl] s2 h f c hstep
                        | none =>
                            simp only [hmiss] at h
                            exact (ih _).2 [v, sl] s2 h f c hstep
        | name p i =>
            have h2 := run_exprs_nil fuel s s2 h
            rw [h2]
            exact hc
        | const v =>
            have h2 := run_exprs_nil fuel s s2 h
            rw [h2]
            exact hc
        | listE elts => exact (ih s).2 elts s2 h f c hc
        | dictE ks vs => exact (ih s).2 (ks.filterMap id ++ vs) s2 h f c hc
        | binOp a b => exact (ih s).2 [a, b] s2 h f c hc
        | attr a b => exact (ih s).2 [a] s2 h f c hc
        | call fn args kws =>
            exact (ih s).2 (fn :: args ++ kws.map Prod.snd) s2 h f c hc
      · intro l s2 h f c hc
        cases l with
        | nil =>
            have h2 := run_exprs_nil (fuel + 1) s s2 h
            rw [h2]
            exact hc
        | cons e rest =>
            simp only [run] at h
            cases he : run fuel s (VTask.expr e) with
            | error msg =>
                rw [he] at h
                exact Except.noConfusion h
            | ok s1 =>
                rw [he] at h
                have h1 := (ih s).1 e s1 he f c hc
                exact (ih s1).2 rest s2 h f c h1

/-- Shape of the only statements handled by _try_create_dataframe or
_try_dataframe_method: an assignment of a call on an attribute of a bare
name to a single bare name. Such a statement may re-bind the frame name to a
fresh tracker built by Tracker.new_with_columns; every other statement
shape leaves every frame tracker intact or grows it. -/
def replacesTracker : Stmt → Bool
  | Stmt.assign [Expr.name _ _]
      (Expr.call (Expr.attr (Expr.name _ _) _) _ _) => true
  | _ => false

/-- A statement that is not of the replacing shape is handled by neither
_try_create_dataframe nor _try_dataframe_method. -/
theorem shape_false_none (s : CState) (targets : List Expr) (value : Expr)
    (hshape : replacesTracker (Stmt.assign targets value) = false) :
    tryCreateDataframe s targets value = none ∧
    tryDataframeMethod s targets value = none := by
  cases targets with
  | nil => exact ⟨rfl, rfl⟩
  | cons t rest =>
      cases rest with
      | cons t2 rest2 => cases t <;> exact ⟨rfl, rfl⟩
      | nil =>
          cases t <;> try exact ⟨rfl, rfl⟩
          case name tp tx =>
            cases value <;> try exact ⟨rfl, rfl⟩
            case call fn args kws =>
              cases fn <;> try exact ⟨rfl, rfl⟩
              case attr av an =>
                cases av <;> try exact ⟨rfl, rfl⟩
                case name np nx => simp [replacesTracker] at hshape

/-- Splitting a successful Except bind into its two successful stages. -/
theorem except_bind_ok {A B : Type} (x : Except String A)
    (g : A → Except String B) (b : B)
    (h : (x >>= g) = Except.ok b) :
    ∃ a, x = Except.ok a ∧ g a = Except.ok b := by
  cases x with
  | error e => exact Except.noConfusion h
  | ok a => exact ⟨a, rfl, h⟩

/-- C7 (amended): for every state, every statement that is not a re-binding
of a name by a call on an attribute of a name (the only shape handled by
_try_create_dataframe and _try_dataframe_method, which replace the tracker
wholesale), and every successful visit of that statement, every tracked
column of every frame before the visit is still tracked after it: subscript
writes, reads and all other statements only ever add columns. -/
theorem claim_C7_amended (fuel : Nat) (s : CState) (st : Stmt) (s2 : CState)
    (hshape : replacesTracker st = false)
    (hrun : run fuel s (VTask.stmt st) = Except.ok s2)
    (f c : String) (hc : trackedCol s.dfs f c) :
    trackedCol s2.dfs f c := by
  cases fuel with
  | zero => exact Except.noConfusion hrun
  | succ fuel =>
    cases st with
    | importStmt names =>
        simp only [run] at hrun
        injection hrun with h2
        rw [← h2]
        exact hc
    | exprStmt e =>
        exact (run_expr_mono fuel s).1 e s2 hrun f c hc
    | assign targets value =>
        have hn := shape_false_none s targets value hshape
        simp only [run, hn.1, hn.2] at hrun
        cases targets with
        | nil => exact (run_expr_mono fuel s).2 _ s2 hrun f c hc
        | cons t rest =>
          cases rest with
          | cons t2 rest2 =>
              cases t <;> exact (run_expr_mono fuel s).2 _ s2 hrun f c hc
          | nil =>
            cases t with
            | name tp tx => exact (run_expr_mono fuel _).2 _ s2 hrun f c hc
            | const v => exact (run_expr_mono fuel s).2 _ s2 hrun f c hc
            | listE elts => exact (run_expr_mono fuel s).2 _ s2 hrun f c hc
            | dictE ks vs => exact (run_expr_mono fuel s).2 _ s2 hrun f c hc
            | binOp a b => exact (run_expr_mono fuel s).2 _ s2 hrun f c hc
            | attr a b => exact (run_expr_mono fuel s).2 _ s2 hrun f c hc
            | call fn args kws =>
                exact (run_expr_mono fuel s).2 _ s2 hrun f c hc
            | subscript nid pos v sl =>
                cases href : extractSingleColumnRef (Expr.subscript nid pos v sl) with
                | none =>
                    simp only [href] at hrun
                    exact (run_expr_mono fuel s).2 _ s2 hrun f c hc
                | some targetRef =>
                    simp only [href] at hrun
                    cases htr : dictGet s.dfs targetRef.dfName with
                    | none =>
                        simp only [htr] at hrun
                        obtain ⟨d, hd, hrun2⟩ := except_bind_ok _ _ _ hrun
                        exact (run_expr_mono fuel _).2 _ s2 hrun2 f c hc
                    | some tracker =>
                        simp only [htr] at hrun
                        cases hex : extractorExtract value with
                        | none =>
                            simp only [hex] at hrun
                            have hstep : trackedCol (dictSet s.dfs targetRef.dfName
                                (targetRef.colNames.foldl
                                  (fun tr c2 => (tr.tryAdd c2 DepArg.noDeps).2)
                                  tracker)) f c :=
                              trackedCol_dictSet s.dfs targetRef.dfName tracker _
                                htr
                                (fun c2 hc2 => foldl_mem_mono _
                                  (fun tr x c3 h3 => tryAdd_mono tr x DepArg.noDeps c3 h3)
                                  _ tracker c2 hc2)
                                f c hc
                            exact (run_expr_mono fuel _).2 _ s2 hrun f c hstep
                        | some readRefs =>
                            simp only [hex] at hrun
                            cases hbad : readRefs.find?
                                (fun r => !(dictMem s.dfs r.dfName)) with
                            | some badRef =>
                                simp only [hbad] at hrun
                                obtain ⟨d, hd, hrun2⟩ := except_bind_ok _ _ _ hrun
                                exact (run_expr_mono fuel _).2 _ s2 hrun2 f c hc
                            | none =>
                                simp only [hbad] at hrun
                                cases hcols : targetRef.colNames with
                                | nil =>
                                    simp only [hcols] at hrun
                                    exact Except.noConfusion hrun
                                | cons firstCol restCols =>
                                    simp only [hcols] at hrun
                                    cases hmiss : (tracker.tryAdd firstCol
                                        (DepArg.many (readRefs.map
                                          (fun r => r.colNames.headD "")))).1 with
                                    | some missing =>
                                        simp only [hmiss] at hrun
                                        obtain ⟨d, hd, hrun2⟩ :=
                                          except_bind_ok _ _ _ hrun
                                        have hstep : trackedCol
                                            (dictSet s.dfs targetRef.dfName
                                              (tracker.tryAdd firstCol
                                                (DepArg.many (readRefs.map
                                                  (fun r => r.colNames.headD "")))).2)
                                            f c :=
                                          trackedCol_dictSet s.dfs targetRef.dfName
                                            tracker _ htr
                                            (fun c2 hc2 =>
                                              tryAdd_mono tracker firstCol _ c2 hc2)
                                            f c hc
                                        exact (run_expr_mono fuel _).2 _ s2 hrun2 f c hstep
                                    | none =>
                                        simp only [hmiss] at hrun
                                        have hstep : trackedCol
                                            (dictSet s.dfs targetRef.dfName
                                              (restCols.foldl
                                                (fun tr c2 => (tr.tryAdd c2
                                                  (DepArg.many (readRefs.map
                                                    (fun r => r.colNames.headD "")))).2)
                                                (tracker.tryAdd firstCol
                                                  (DepArg.many (readRefs.map
                                                    (fun r => r.colNames.headD "")))).2))
                                            f c :=
                                          trackedCol_dictSet s.dfs targetRef.dfName
                                            tracker _ htr
                                            (fun c2 hc2 => foldl_mem_mono _
                                              (fun tr x c3 h3 =>
                                                tryAdd_mono tr x _ c3 h3)
                                              restCols _ c2
                                              (tryAdd_mono tracker firstCol _ c2 hc2))
                                            f c hc
                                        exact (run_expr_mono fuel _).2 _ s2 hrun f c hstep

/-- Concrete state for the amended-C7 witness: the frame df tracks
column A. -/
def c7aState : CState :=
  { skip := [], diagnostics := []
    dfs := [("df", Tracker.newWithColumns "df" ["A"])]
    pandasAliases := ["pd"], definitions := [] }

/-- Concrete statement for the amended-C7 witness: the subscript write
df["B"] = 1, which is not of the tracker-replacing shape. -/
def c7aStmt : Stmt :=
  Stmt.assign
    [Expr.subscript 7 ⟨4, 0, 4, 9⟩ (Expr.name ⟨4, 0, 4, 2⟩ "df")
      (Expr.const (ConstVal.str "B"))]
    (Expr.const (ConstVal.intVal 1))

/-- The state after visiting the amended-C7 witness statement. -/
def c7aResult : CState :=
  ((run 10 c7aState (VTask.stmt c7aStmt)).toOption).getD initState

/-- Witness for the amended C7 at a concrete input: the subscript write
df["B"] = 1 is not of the replacing shape, visiting it succeeds, and the
previously tracked column A of df is still tracked afterwards. -/
theorem claim_C7_amended_witness :
    replacesTracker c7aStmt = false ∧
    trackedCol c7aState.dfs "df" "A" ∧
    trackedCol c7aResult.dfs "df" "A" :=
  ⟨by decide, ⟨Tracker.newWithColumns "df" ["A"], rfl, rfl⟩,
    claim_C7_amended 10 c7aState c7aStmt c7aResult (by decide) rfl "df" "A"
      ⟨Tracker.newWithColumns "df" ["A"], rfl, rfl⟩⟩

/-- The rational value of n / 1. -/
theorem Frac.toRat_ofNat (n : Nat) : (Frac.ofNat n).toRat = (n : ℚ) := by
  simp [Frac.ofNat, Frac.toRat]

/-- Fraction addition computes rational addition (positive denominators). -/
theorem Frac.toRat_add (a b : Frac) (ha : 0 < a.den) (hb : 0 < b.den) :
    (a.add b).toRat = a.toRat + b.toRat := by
  have ha2 : ((a.den : ℚ)) ≠ 0 := by
    exact_mod_cast Nat.pos_iff_ne_zero.mp ha
  have hb2 : ((b.den : ℚ)) ≠ 0 := by
    exact_mod_cast Nat.pos_iff_ne_zero.mp hb
  unfold Frac.add Frac.toRat
  push_cast
  rw [div_add_div _ _ ha2 hb2]
  ring_nf

/-- Fraction subtraction computes rational subtraction (positive
denominators). -/
theorem Frac.toRat_sub (a b : Frac) (ha : 0 < a.den) (hb : 0 < b.den) :
    (a.sub b).toRat = a.toRat - b.toRat := by
  have ha2 : ((a.den : ℚ)) ≠ 0 := by
    exact_mod_cast Nat.pos_iff_ne_zero.mp ha
  have hb2 : ((b.den : ℚ)) ≠ 0 := by
    exact_mod_cast Nat.pos_iff_ne_zero.mp hb
  unfold Frac.sub Frac.toRat
  push_cast
  rw [div_sub_div _ _ ha2 hb2]
  ring_nf

/-- Fraction multiplication computes rational multiplication. -/
theorem Frac.toRat_mul (a b : Frac) :
    (a.mul b).toRat = a.toRat * b.toRat := by
  unfold Frac.mul Frac.toRat
  push_cast
  rw [div_mul_div_comm]

/-- Fraction division computes rational division (positive numerator and
denominator of the divisor, as at every division site of the similarity
code). -/
theorem Frac.toRat_div (a b : Frac) (ha : 0 < a.den) (hb : 0 < b.num)
    (hbd : 0 < b.den) : (a.div b).toRat = a.toRat / b.toRat := by
  have ha2 : ((a.den : ℚ)) ≠ 0 := by
    exact_mod_cast Nat.pos_iff_ne_zero.mp ha
  have hb2 : ((b.num : ℚ)) ≠ 0 := by
    exact_mod_cast (ne_of_gt hb)
  have hbd2 : ((b.den : ℚ)) ≠ 0 := by
    exact_mod_cast Nat.pos_iff_ne_zero.mp hbd
  unfold Frac.div Frac.toRat
  rw [Int.sign_eq_one_of_pos hb]
  push_cast [Int.cast_natAbs]
  rw [abs_of_nonneg (show (0 : ℚ) ≤ ((b.num : ℚ)) by exact_mod_cast le_of_lt hb)]
  field_simp

/-- Strict fraction comparison is sound for the rational order under
positive denominators. -/
theorem Frac.ltB_iff (a b : Frac) (ha : 0 < a.den) (hb : 0 < b.den) :
    a.ltB b = true ↔ a.toRat < b.toRat := by
  have ha2 : (0 : ℚ) < (a.den : ℚ) := by exact_mod_cast ha
  have hb2 : (0 : ℚ) < (b.den : ℚ) := by exact_mod_cast hb
  unfold Frac.toRat
  rw [div_lt_div_iff ha2 hb2]
  simp only [Frac.ltB, decide_eq_true_eq]
  constructor
  · intro h; exact_mod_cast h
  · intro h; exact_mod_cast h

/-- Fraction value equality is sound for rational equality under positive
denominators. -/
theorem Frac.eqB_iff (a b : Frac) (ha : 0 < a.den) (hb : 0 < b.den) :
    a.eqB b = true ↔ a.toRat = b.toRat := by
  have ha2 : ((a.den : ℚ)) ≠ 0 := by
    exact_mod_cast Nat.pos_iff_ne_zero.mp ha
  have hb2 : ((b.den : ℚ)) ≠ 0 := by
    exact_mod_cast Nat.pos_iff_ne_zero.mp hb
  unfold Frac.toRat
  rw [div_eq_div_iff ha2 hb2]
  simp only [Frac.eqB, decide_eq_true_eq]
  constructor
  · intro h; exact_mod_cast h
  · intro h; exact_mod_cast h

/-- Fraction value equality is reflexive. -/
theorem Frac.eqB_refl (a : Frac) : a.eqB a = true := by
  simp [Frac.eqB]

/-- abs of a nonnegative fraction keeps its rational value. -/
theorem Frac.toRat_absF_of_nonneg (a : Frac) (ha : 0 < a.den)
    (h : 0 ≤ a.toRat) : a.absF.toRat = a.toRat := by
  have ha2 : (0 : ℚ) < (a.den : ℚ) := by exact_mod_cast ha
  have hnum : 0 ≤ a.num := by
    by_contra hneg
    push_neg at hneg
    have hneg2 : ((a.num : ℚ)) < 0 := by exact_mod_cast hneg
    have : a.toRat < 0 := div_neg_of_neg_of_pos hneg2 ha2
    exact absurd h (not_le_of_lt this)
  unfold Frac.absF Frac.toRat
  rw [if_neg (not_lt_of_le hnum)]

/-- abs does not change the denominator. -/
theorem Frac.den_absF (a : Frac) : a.absF.den = a.den := rfl

/-- Number of set entries of a hash array (Python sum over booleans). -/
def countTrue : List Bool → Nat
  | [] => 0
  | b :: t => (if b then 1 else 0) + countTrue t

/-- A hash array has at most as many set entries as entries. -/
theorem countTrue_le_length (h : List Bool) : countTrue h ≤ h.length := by
  induction h with
  | nil => exact Nat.le_refl 0
  | cons b t ih =>
      unfold countTrue
      cases b <;> simp <;> omega

/-- The all-unset hash array has no set entries. -/
theorem countTrue_replicate (n : Nat) :
    countTrue (List.replicate n false) = 0 := by
  induction n with
  | zero => rfl
  | succ n ih => simpa [List.replicate, countTrue] using ih

/-- Setting an unset entry increments the set count by one. -/
theorem countTrue_set_true (h : List Bool) (i : Nat)
    (hget : h.get? i = some false) :
    countTrue (h.set i true) = countTrue h + 1 := by
  induction h generalizing i with
  | nil => simp at hget
  | cons b t ih =>
      cases i with
      | zero =>
          have hb : b = false := by simpa using hget
          subst hb
          simp only [countTrue, List.set]
          simp
          omega
      | succ i =>
          have hget2 : t.get? i = some false := by simpa using hget
          simp only [List.set, countTrue, ih i hget2]
          omega

/-- The window search only ever reports an index holding the sought
character with an unset hash entry. -/
theorem findMatchIdx_spec (c : Char) (l2 : List Char) (h2 : List Bool) :
    ∀ (count j k : Nat), findMatchIdx c l2 h2 j count = some k →
      l2.get? k = some c ∧ h2.get? k = some false := by
  intro count
  induction count with
  | zero => intro j k h; simp [findMatchIdx] at h
  | succ count ih =>
      intro j k h
      unfold findMatchIdx at h
      cases hg2 : l2.get? j with
      | none =>
          simp only [hg2] at h
          exact ih _ _ h
      | some ch =>
          cases hh2 : h2.get? j with
          | none =>
              simp only [hg2, hh2] at h
              exact ih _ _ h
          | some hb =>
              simp only [hg2, hh2] at h
              by_cases hcond : ch = c ∧ hb = false
              · rw [if_pos hcond] at h
                injection h with h
                subst h
                rw [hcond.1] at hg2
                rw [hcond.2] at hh2
                exact ⟨hg2, hh2⟩
              · rw [if_neg hcond] at h
                exact ih _ _ h

/-- One matching step preserves the phase invariant: hash lengths equal the
string lengths, each hash array has exactly m set entries, m is at most the
number of processed indices, and no entry of the first hash at an
unprocessed index is set. -/
theorem matchStep_inv (l1 l2 : List Char) (d : Int) (st : MatchState)
    (n : Nat)
    (hl1 : st.h1.length = l1.length) (hl2 : st.h2.length = l2.length)
    (hc1 : countTrue st.h1 = st.m) (hc2 : countTrue st.h2 = st.m)
    (hm : st.m ≤ n) (hfresh : ∀ j, n ≤ j → st.h1.get? j ≠ some true) :
    (matchStep l1 l2 d st n).h1.length = l1.length ∧
    (matchStep l1 l2 d st n).h2.length = l2.length ∧
    countTrue (matchStep l1 l2 d st n).h1 = (matchStep l1 l2 d st n).m ∧
    countTrue (matchStep l1 l2 d st n).h2 = (matchStep l1 l2 d st n).m ∧
    (matchStep l1 l2 d st n).m ≤ n + 1 ∧
    ∀ j, n + 1 ≤ j → (matchStep l1 l2 d st n).h1.get? j ≠ some true := by
  simp only [matchStep]
  split
  · exact ⟨hl1, hl2, hc1, hc2, Nat.le_succ_of_le hm,
      fun j hj => hfresh j (Nat.le_of_succ_le hj)⟩
  · rename_i c hg1
    split
    · rename_i k hf
      obtain ⟨hgk, hhk⟩ := findMatchIdx_spec c l2 st.h2 _ _ k hf
      have hlt : n < l1.length := by
        by_contra hge
        push_neg at hge
        rw [List.get?_eq_none.mpr hge] at hg1
        exact Option.noConfusion hg1
      have hlt2 : n < st.h1.length := by rw [hl1]; exact hlt
      have hn : st.h1.get? n = some false := by
        rw [List.get?_eq_get hlt2]
        have := hfresh n (Nat.le_refl n)
        rw [List.get?_eq_get hlt2] at this
        cases hb : st.h1.get ⟨n, hlt2⟩ with
        | true => exact absurd (by rw [hb]) this
        | false => rfl
      refine ⟨?_, ?_, ?_, ?_, ?_, ?_⟩
      · simpa using hl1
      · simpa using hl2
      · simp only []
        rw [countTrue_set_true st.h1 n hn, hc1]
      · simp only []
        rw [countTrue_set_true st.h2 k hhk, hc2]
      · exact Nat.succ_le_succ hm
      · intro j hj
        have hne : n ≠ j := by omega
        simp only []
        rw [List.get?_set_ne _ _ hne]
        exact hfresh j (by omega)
    · exact ⟨hl1, hl2, hc1, hc2, Nat.le_succ_of_le hm,
        fun j hj => hfresh j (Nat.le_of_succ_le hj)⟩

/-- Invariant of the partial matching fold over the first n indices. -/
theorem matchFold_inv (l1 l2 : List Char) (d : Int) (n : Nat) :
    ((List.range n).foldl (matchStep l1 l2 d)
      ⟨List.replicate l1.length false,
       List.replicate l2.length false, 0⟩).h1.length = l1.length ∧
    ((List.range n).foldl (matchStep l1 l2 d)
      ⟨List.replicate l1.length false,
       List.replicate l2.length false, 0⟩).h2.length = l2.length ∧
    countTrue ((List.range n).foldl (matchStep l1 l2 d)
      ⟨List.replicate l1.length false,
       List.replicate l2.length false, 0⟩).h1 =
      ((List.range n).foldl (matchStep l1 l2 d)
        ⟨List.replicate l1.length false,
         List.replicate l2.length false, 0⟩).m ∧
    countTrue ((List.range n).foldl (matchStep l1 l2 d)
      ⟨List.replicate l1.length false,
       List.replicate l2.length false, 0⟩).h2 =
      ((List.range n).foldl (matchStep l1 l2 d)
        ⟨List.replicate l1.length false,
         List.replicate l2.length false, 0⟩).m ∧
    ((List.range n).foldl (matchStep l1 l2 d)
      ⟨List.replicate l1.length false,
       List.replicate l2.length false, 0⟩).m ≤ n ∧
    ∀ j, n ≤ j →
      ((List.range n).foldl (matchStep l1 l2 d)
        ⟨List.replicate l1.length false,
         List.replicate l2.length false, 0⟩).h1.get? j ≠ some true := by
  induction n with
  | zero =>
      refine ⟨by simp, by simp, countTrue_replicate _, countTrue_replicate _,
        Nat.le_refl 0, ?_⟩
      intro j hj h
      simp only [List.range_zero, List.foldl_nil] at h
      rw [List.get?_eq_getElem?, List.getElem?_replicate] at h
      by_cases hjl : j < l1.length
      · rw [if_pos hjl] at h
        exact Bool.noConfusion (Option.some.inj h)
      · rw [if_neg hjl] at h
        exact Option.noConfusion h
  | succ n ih =>
      rw [List.range_succ, List.foldl_append, List.foldl_cons, List.foldl_nil]
      exact matchStep_inv l1 l2 d _ n ih.1 ih.2.1 ih.2.2.1 ih.2.2.2.1
        ih.2.2.2.2.1 ih.2.2.2.2.2

/-- The selected characters are exactly as many as the set hash entries. -/
theorem matchedChars_length (l : List Char) (h : List Bool)
    (hlen : h.length = l.length) :
    (matchedChars l h).length = countTrue h := by
  induction l generalizing h with
  | nil =>
      cases h with
      | nil => rfl
      | cons b hb => simp at hlen
  | cons a t ih =>
      cases h with
      | nil => simp at hlen
      | cons b hb =>
          have hlen2 : hb.length = t.length := by simpa using hlen
          have h2 := ih hb hlen2
          cases b <;> simp [matchedChars, countTrue] at h2 ⊢ <;> omega

/-- The pointwise difference count is bounded by the first length. -/
theorem countDiff_le_left (a b : List Char) : countDiff a b ≤ a.length := by
  induction a generalizing b with
  | nil => cases b <;> simp [countDiff]
  | cons x xs ih =>
      cases b with
      | nil => simp [countDiff]
      | cons y ys =>
          have h := ih ys
          simp only [countDiff, List.length_cons]
          split <;> omega

/-- Facts from the matching-phase invariant: the match count is bounded by
both string lengths and dominates the raw transposition count. -/
theorem matchPhase_facts (l1 l2 : List Char) (d : Int) :
    (matchPhase l1 l2 d).m ≤ l1.length ∧
    (matchPhase l1 l2 d).m ≤ l2.length ∧
    countDiff (matchedChars l1 (matchPhase l1 l2 d).h1)
      (matchedChars l2 (matchPhase l1 l2 d).h2) ≤ (matchPhase l1 l2 d).m := by
  have e : matchPhase l1 l2 d = (List.range l1.length).foldl (matchStep l1 l2 d)
      ⟨List.replicate l1.length false, List.replicate l2.length false, 0⟩ := rfl
  rw [e]
  obtain ⟨hL1, hL2, hC1, hC2, hM, _⟩ := matchFold_inv l1 l2 d l1.length
  refine ⟨hM, ?_, ?_⟩
  · have hct := countTrue_le_length ((List.range l1.length).foldl
      (matchStep l1 l2 d)
      ⟨List.replicate l1.length false,
       List.replicate l2.length false, 0⟩).h2
    rw [hL2, hC2] at hct
    exact hct
  · have hd1 := countDiff_le_left
      (matchedChars l1 ((List.range l1.length).foldl (matchStep l1 l2 d)
        ⟨List.replicate l1.length false,
         List.replicate l2.length false, 0⟩).h1)
      (matchedChars l2 ((List.range l1.length).foldl (matchStep l1 l2 d)
        ⟨List.replicate l1.length false,
         List.replicate l2.length false, 0⟩).h2)
    rw [matchedChars_length l1 _ hL1, hC1] at hd1
    exact hd1

/-- The Jaro value with the Winkler bonus as computed in the main branch of
jaro_winkler, as a function of match count, lengths, transposition count and
common prefix length. -/
def jaroVal (m len1 len2 t pfx : Nat) : Frac :=
  let jaro : Frac :=
    (((Frac.ofNat m).div (Frac.ofNat len1)).add
      (((Frac.ofNat m).div (Frac.ofNat len2)).add
        (((Frac.ofNat m).sub (Frac.ofNat t)).div (Frac.ofNat m)))).div
      (Frac.ofNat 3)
  jaro.add (((⟨1, 10⟩ : Frac).mul (Frac.ofNat pfx)).mul
    ((Frac.ofNat 1).sub jaro))

/-- jaro_winkler written through jaroVal: equal strings give 1, a zero match
count gives 0, otherwise the Jaro value with the Winkler bonus. -/
theorem jaroWinkler_eq (s1 s2 : String) :
    jaroWinkler s1 s2 =
      if pyLower s1 = pyLower s2 then Frac.ofNat 1
      else if (matchPhase (pyLower s1) (pyLower s2)
          (Int.ofNat (max (pyLower s1).length (pyLower s2).length / 2) - 1)).m
          = 0 then Frac.ofNat 0
      else jaroVal
        (matchPhase (pyLower s1) (pyLower s2)
          (Int.ofNat (max (pyLower s1).length (pyLower s2).length / 2) - 1)).m
        (pyLower s1).length (pyLower s2).length
        (countDiff
          (matchedChars (pyLower s1)
            (matchPhase (pyLower s1) (pyLower s2)
              (Int.ofNat (max (pyLower s1).length (pyLower s2).length / 2)
                - 1)).h1)
          (matchedChars (pyLower s2)
            (matchPhase (pyLower s1) (pyLower s2)
              (Int.ofNat (max (pyLower s1).length (pyLower s2).length / 2)
                - 1)).h2) / 2)
        (min 4 (commonStartLen (pyLower s1) (pyLower s2))) := rfl

/-- The denominator of the main-branch value is positive when the match
count and both lengths are. -/
theorem jaroVal_den_pos (m len1 len2 t pfx : Nat) (hm : 0 < m)
    (h1 : 0 < len1) (h2 : 0 < len2) :
    0 < (jaroVal m len1 len2 t pfx).den := by
  simp only [jaroVal, Frac.add, Frac.div, Frac.sub, Frac.mul, Frac.ofNat,
    Int.natAbs_ofNat]
  positivity

/-- The rational value of the main-branch computation. -/
theorem jaroVal_toRat (m len1 len2 t pfx : Nat) (hm : 0 < m)
    (h1 : 0 < len1) (h2 : 0 < len2) :
    (jaroVal m len1 len2 t pfx).toRat =
      (((m : ℚ) / (len1 : ℚ) + ((m : ℚ) / (len2 : ℚ) +
        ((m : ℚ) - (t : ℚ)) / (m : ℚ))) / 3) +
      ((1 / 10 * (pfx : ℚ)) *
        (1 - (((m : ℚ) / (len1 : ℚ) + ((m : ℚ) / (len2 : ℚ) +
          ((m : ℚ) - (t : ℚ)) / (m : ℚ))) / 3))) := by
  have hmQ : (0 : ℚ) < (m : ℚ) := by exact_mod_cast hm
  have h1Q : (0 : ℚ) < (len1 : ℚ) := by exact_mod_cast h1
  have h2Q : (0 : ℚ) < (len2 : ℚ) := by exact_mod_cast h2
  have sg1 : Int.sign (Int.ofNat len1) = 1 :=
    Int.sign_eq_one_of_pos (Int.ofNat_pos.mpr h1)
  have sg2 : Int.sign (Int.ofNat len2) = 1 :=
    Int.sign_eq_one_of_pos (Int.ofNat_pos.mpr h2)
  have sgm : Int.sign (Int.ofNat m) = 1 :=
    Int.sign_eq_one_of_pos (Int.ofNat_pos.mpr hm)
  have sg3 : Int.sign (Int.ofNat 3) = 1 := rfl
  unfold Frac.toRat
  simp only [jaroVal, Frac.add, Frac.div, Frac.sub, Frac.mul, Frac.ofNat,
    Int.natAbs_ofNat, sg1, sg2, sgm, sg3, mul_one, one_mul]
  push_cast
  field_simp

/-- The main-branch value is nonnegative when the match count is bounded by
both lengths and dominates the transposition count. -/
theorem jaroVal_nonneg (m len1 len2 t pfx : Nat) (hm : 0 < m)
    (h1 : 0 < len1) (h2 : 0 < len2) (hm1 : m ≤ len1) (hm2 : m ≤ len2)
    (ht : t ≤ m) : 0 ≤ (jaroVal m len1 len2 t pfx).toRat := by
  rw [jaroVal_toRat m len1 len2 t pfx hm h1 h2]
  have hmQ : (0 : ℚ) < (m : ℚ) := by exact_mod_cast hm
  have h1Q : (0 : ℚ) < (len1 : ℚ) := by exact_mod_cast h1
  have h2Q : (0 : ℚ) < (len2 : ℚ) := by exact_mod_cast h2
  have hm1Q : (m : ℚ) ≤ (len1 : ℚ) := by exact_mod_cast hm1
  have hm2Q : (m : ℚ) ≤ (len2 : ℚ) := by exact_mod_cast hm2
  have htQ : (t : ℚ) ≤ (m : ℚ) := by exact_mod_cast ht
  have hpQ : (0 : ℚ) ≤ (pfx : ℚ) := by positivity
  have hJ0 : 0 ≤ ((m : ℚ) / (len1 : ℚ) + ((m : ℚ) / (len2 : ℚ) +
      ((m : ℚ) - (t : ℚ)) / (m : ℚ))) / 3 := by
    apply div_nonneg _ (by norm_num)
    have a1 : (0 : ℚ) ≤ (m : ℚ) / (len1 : ℚ) :=
      div_nonneg (le_of_lt hmQ) (le_of_lt h1Q)
    have a2 : (0 : ℚ) ≤ (m : ℚ) / (len2 : ℚ) :=
      div_nonneg (le_of_lt hmQ) (le_of_lt h2Q)
    have a3 : (0 : ℚ) ≤ ((m : ℚ) - (t : ℚ)) / (m : ℚ) :=
      div_nonneg (by linarith) (le_of_lt hmQ)
    linarith
  have hJ1 : ((m : ℚ) / (len1 : ℚ) + ((m : ℚ) / (len2 : ℚ) +
      ((m : ℚ) - (t : ℚ)) / (m : ℚ))) / 3 ≤ 1 := by
    rw [div_le_one (by norm_num : (0 : ℚ) < 3)]
    have a1 : (m : ℚ) / (len1 : ℚ) ≤ 1 := (div_le_one h1Q).mpr hm1Q
    have a2 : (m : ℚ) / (len2 : ℚ) ≤ 1 := (div_le_one h2Q).mpr hm2Q
    have a3 : ((m : ℚ) - (t : ℚ)) / (m : ℚ) ≤ 1 :=
      (div_le_one hmQ).mpr (by linarith)
    linarith
  have hb : 0 ≤ (1 / 10 * (pfx : ℚ)) *
      (1 - ((m : ℚ) / (len1 : ℚ) + ((m : ℚ) / (len2 : ℚ) +
        ((m : ℚ) - (t : ℚ)) / (m : ℚ))) / 3) := by
    apply mul_nonneg (by positivity)
    linarith
  linarith

/-- Every value of jaro_winkler has a positive denominator. -/
theorem jaroWinkler_den_pos (s1 s2 : String) :
    0 < (jaroWinkler s1 s2).den := by
  rw [jaroWinkler_eq]
  by_cases h12 : pyLower s1 = pyLower s2
  · rw [if_pos h12]
    exact Nat.one_pos
  · rw [if_neg h12]
    by_cases hm0 : (matchPhase (pyLower s1) (pyLower s2)
        (Int.ofNat (max (pyLower s1).length (pyLower s2).length / 2) - 1)).m
        = 0
    · rw [if_pos hm0]
      exact Nat.one_pos
    · rw [if_neg hm0]
      obtain ⟨hb1, hb2, _⟩ := matchPhase_facts (pyLower s1) (pyLower s2)
        (Int.ofNat (max (pyLower s1).length (pyLower s2).length / 2) - 1)
      have hmp := Nat.pos_of_ne_zero hm0
      exact jaroVal_den_pos _ _ _ _ _ hmp (lt_of_lt_of_le hmp hb1)
        (lt_of_lt_of_le hmp hb2)

/-- Every value of jaro_winkler is nonnegative, so the abs applied by
zero_deps_jaro_winkler does not change it. -/
theorem jaroWinkler_nonneg (s1 s2 : String) :
    0 ≤ (jaroWinkler s1 s2).toRat := by
  rw [jaroWinkler_eq]
  by_cases h12 : pyLower s1 = pyLower s2
  · rw [if_pos h12, Frac.toRat_ofNat]
    norm_num
  · rw [if_neg h12]
    by_cases hm0 : (matchPhase (pyLower s1) (pyLower s2)
        (Int.ofNat (max (pyLower s1).length (pyLower s2).length / 2) - 1)).m
        = 0
    · rw [if_pos hm0, Frac.toRat_ofNat]
      norm_num
    · rw [if_neg hm0]
      obtain ⟨hb1, hb2, hbt⟩ := matchPhase_facts (pyLower s1) (pyLower s2)
        (Int.ofNat (max (pyLower s1).length (pyLower s2).length / 2) - 1)
      have hmp := Nat.pos_of_ne_zero hm0
      exact jaroVal_nonneg _ _ _ _ _ hmp (lt_of_lt_of_le hmp hb1)
        (lt_of_lt_of_le hmp hb2) hb1 hb2
        (le_trans (Nat.div_le_self _ 2) hbt)

/-- Every entry of a dictionary after an update was an old entry or the
update pair. -/
theorem dictSet_mem_sub {A : Type} (m : List (String × A)) (k : String)
    (v : A) : ∀ p ∈ dictSet m k v, p ∈ m ∨ p = (k, v) := by
  induction m with
  | nil => intro p hp; right; simpa [dictSet] using hp
  | cons q rest ih =>
      intro p hp
      obtain ⟨qk, qv⟩ := q
      by_cases hq : qk = k
      · simp only [dictSet, if_pos hq] at hp
        cases hp with
        | head => right; rfl
        | tail _ hmem => left; exact List.mem_cons_of_mem _ hmem
      · simp only [dictSet, if_neg hq] at hp
        cases hp with
        | head => left; exact List.mem_cons_self _ _
        | tail _ hmem =>
            cases ih p hmem with
            | inl h => left; exact List.mem_cons_of_mem _ h
            | inr h => right; exact h

/-- Every entry of the similarity dictionary built by
zero_deps_jaro_winkler pairs a candidate with its absolute similarity. -/
theorem simEntries_mem (tc : String) :
    ∀ (C : List String) (m0 : List (String × Frac)),
      ∀ p ∈ C.foldl
        (fun m2 col => dictSet m2 col (Frac.absF (jaroWinkler tc col))) m0,
      p ∈ m0 ∨ (p.1 ∈ C ∧ p.2 = Frac.absF (jaroWinkler tc p.1)) := by
  intro C
  induction C with
  | nil => intro m0 p hp; left; exact hp
  | cons c rest ih =>
      intro m0 p hp
      simp only [List.foldl_cons] at hp
      cases ih (dictSet m0 c (Frac.absF (jaroWinkler tc c))) p hp with
      | inl h =>
          cases dictSet_mem_sub m0 c (Frac.absF (jaroWinkler tc c)) p h with
          | inl h2 => left; exact h2
          | inr h2 =>
              right
              rw [h2]
              exact ⟨List.mem_cons_self _ _, rfl⟩
      | inr h =>
          right
          exact ⟨List.mem_cons_of_mem _ h.1, h.2⟩

/-- A key untouched by the fold keeps its value. -/
theorem simEntries_get_untouched (tc : String) :
    ∀ (C : List String) (m0 : List (String × Frac)) (c : String) (v : Frac),
      dictGet m0 c = some v → c ∉ C →
      dictGet (C.foldl
        (fun m2 col => dictSet m2 col (Frac.absF (jaroWinkler tc col))) m0) c
        = some v := by
  intro C
  induction C with
  | nil => intro m0 c v hv _; exact hv
  | cons d rest ih =>
      intro m0 c v hv hc
      simp only [List.foldl_cons]
      have hd : d ≠ c := fun h => hc (by rw [h]; exact List.mem_cons_self _ _)
      refine ih _ c v ?_ (fun h => hc (List.mem_cons_of_mem _ h))
      rw [dictGet_dictSet_ne _ _ _ _ (fun h => hd h.symm)]
      exact hv

/-- Every candidate is a key of the similarity dictionary, carrying its
absolute similarity. -/
theorem simEntries_coverage (tc : String) :
    ∀ (C : List String) (m0 : List (String × Frac)) (c : String), c ∈ C →
      dictGet (C.foldl
        (fun m2 col => dictSet m2 col (Frac.absF (jaroWinkler tc col))) m0) c
        = some (Frac.absF (jaroWinkler tc c)) := by
  intro C
  induction C with
  | nil => intro m0 c hc; exact absurd hc (List.not_mem_nil c)
  | cons d rest ih =>
      intro m0 c hc
      simp only [List.foldl_cons]
      by_cases hcr : c ∈ rest
      · exact ih _ c hcr
      · have hcd : c = d := by
          cases hc with
          | head => rfl
          | tail _ h => exact absurd h hcr
        subst hcd
        exact simEntries_get_untouched tc rest _ c _
          (dictGet_dictSet_self _ _ _) hcr

/-- The running maximum of the fold underlying Python max stays in the
list. -/
theorem foldlMax_mem : ∀ (xs : List Frac) (x : Frac),
    (xs.foldl (fun a b => if a.ltB b then b else a) x) ∈ x :: xs := by
  intro xs
  induction xs with
  | nil => intro x; simp
  | cons b bs ih =>
      intro x
      simp only [List.foldl_cons]
      have h := ih (if x.ltB b then b else x)
      rcases List.mem_cons.mp h with h2 | h2
      · rw [h2]
        by_cases hlt : x.ltB b = true
        · rw [if_pos hlt]
          exact List.mem_cons_of_mem _ (List.mem_cons_self _ _)
        · rw [if_neg hlt]
          exact List.mem_cons_self _ _
      · exact List.mem_cons_of_mem _ (List.mem_cons_of_mem _ h2)

/-- The running maximum of the fold underlying Python max dominates every
element, under positive denominators. -/
theorem foldlMax_ge : ∀ (xs : List Frac) (x : Frac),
    (∀ v ∈ x :: xs, 0 < v.den) →
    ∀ y ∈ x :: xs,
      y.toRat ≤ ((xs.foldl (fun a b => if a.ltB b then b else a) x)).toRat := by
  intro xs
  induction xs with
  | nil =>
      intro x hden y hy
      have hyx : y = x := List.mem_singleton.mp hy
      rw [hyx]
      simp
  | cons b bs ih =>
      intro x hden y hy
      simp only [List.foldl_cons]
      have hdx : 0 < x.den := hden x (List.mem_cons_self _ _)
      have hdb : 0 < b.den :=
        hden b (List.mem_cons_of_mem _ (List.mem_cons_self _ _))
      have hdz : ∀ v ∈ (if x.ltB b then b else x) :: bs, 0 < v.den := by
        intro v hv
        rcases List.mem_cons.mp hv with h2 | h2
        · rw [h2]
          by_cases hlt : x.ltB b = true
          · rw [if_pos hlt]; exact hdb
          · rw [if_neg hlt]; exact hdx
        · exact hden v (List.mem_cons_of_mem _ (List.mem_cons_of_mem _ h2))
      have hzge := ih (if x.ltB b then b else x) hdz
        (if x.ltB b then b else x) (List.mem_cons_self _ _)
      have hxz : x.toRat ≤ (if x.ltB b then b else x).toRat := by
        by_cases hlt : x.ltB b = true
        · rw [if_pos hlt]
          exact le_of_lt ((Frac.ltB_iff x b hdx hdb).mp hlt)
        · rw [if_neg hlt]
      have hbz : b.toRat ≤ (if x.ltB b then b else x).toRat := by
        by_cases hlt : x.ltB b = true
        · rw [if_pos hlt]
        · rw [if_neg hlt]
          exact le_of_not_lt
            (fun hq => hlt ((Frac.ltB_iff x b hdx hdb).mpr hq))
      rcases List.mem_cons.mp hy with h2 | h2
      · rw [h2]; exact le_trans hxz hzge
      · rcases List.mem_cons.mp h2 with h3 | h3
        · rw [h3]; exact le_trans hbz hzge
        · exact ih (if x.ltB b then b else x) hdz y
            (List.mem_cons_of_mem _ h3)

/-- Python max of a non-empty float list is an element of the list. -/
theorem pyMaxF_mem (x : Frac) (xs : List Frac) :
    pyMaxF (x :: xs) ∈ x :: xs :=
  foldlMax_mem xs x

/-- Python max of a non-empty float list dominates every element, under
positive denominators. -/
theorem pyMaxF_ge (x : Frac) (xs : List Frac)
    (hden : ∀ v ∈ x :: xs, 0 < v.den) :
    ∀ y ∈ x :: xs, y.toRat ≤ (pyMaxF (x :: xs)).toRat :=
  foldlMax_ge xs x hden

/-- Python list.index finds an index with an equal value when one exists. -/
theorem pyIndexF_spec (v : Frac) :
    ∀ (xs : List Frac), (∃ x ∈ xs, x.eqB v = true) →
      ∃ h : pyIndexF xs v < xs.length,
        (xs.get ⟨pyIndexF xs v, h⟩).eqB v = true := by
  intro xs
  induction xs with
  | nil => intro h; obtain ⟨x, hx, _⟩ := h; exact absurd hx (List.not_mem_nil x)
  | cons x rest ih =>
      intro hex
      by_cases hx : x.eqB v = true
      · refine ⟨by simp [pyIndexF, hx], ?_⟩
        simp [pyIndexF, hx]
      · obtain ⟨y, hy, hyv⟩ := hex
        have hyr : y ∈ rest := by
          cases hy with
          | head => exact absurd hyv hx
          | tail _ h2 => exact h2
        obtain ⟨hlt, hget⟩ := ih ⟨y, hyr, hyv⟩
        refine ⟨by simp [pyIndexF, hx]; omega, ?_⟩
        simpa [pyIndexF, hx] using hget

/-- C5: for every missing column name and every candidate collection, the
similarity oracle zero_deps_jaro_winkler returns a suggestion exactly when
the collection is non-empty and the maximal case-insensitive Jaro-Winkler
similarity (prefix scale 1/10, prefix length capped at 4, as implemented by
jaroWinkler) with a candidate is strictly greater than 9/10; a returned
suggestion is a candidate attaining that maximal similarity, and for an
empty collection or a maximum at most 9/10 no suggestion is returned. -/
theorem claim_C5 (tc : String) (C : List String) :
    match zeroDepsJaroWinkler tc C with
    | some s => C ≠ [] ∧ s ∈ C ∧
        (9 : ℚ) / 10 < (jaroWinkler tc s).toRat ∧
        ∀ c ∈ C, (jaroWinkler tc c).toRat ≤ (jaroWinkler tc s).toRat
    | none => C = [] ∨ ∀ c ∈ C, (jaroWinkler tc c).toRat ≤ (9 : ℚ) / 10 := by
  by_cases hC : C.isEmpty = true
  · have hz : zeroDepsJaroWinkler tc C = none := by
      unfold zeroDepsJaroWinkler
      rw [if_pos hC]
    simp only [hz]
    left
    exact List.isEmpty_iff.mp hC
  · have hCb : C.isEmpty = false := by
      cases h2 : C.isEmpty with
      | true => exact absurd h2 hC
      | false => rfl
    have hCne : C ≠ [] := fun h => hC (by rw [h]; rfl)
    set E := C.foldl
      (fun m2 col => dictSet m2 col (Frac.absF (jaroWinkler tc col)))
      ([] : List (String × Frac)) with hE
    have hcov : ∀ c ∈ C, dictGet E c = some (Frac.absF (jaroWinkler tc c)) :=
      fun c hc => simEntries_coverage tc C [] c hc
    have hE1 : ∀ p ∈ E, p.1 ∈ C ∧ p.2 = Frac.absF (jaroWinkler tc p.1) := by
      intro p hp
      rcases simEntries_mem tc C [] p hp with h | h
      · exact absurd h (List.not_mem_nil p)
      · exact h
    have hvalden : ∀ v ∈ E.map Prod.snd, 0 < v.den := by
      intro v hv
      obtain ⟨p, hp, hpv⟩ := List.mem_map.mp hv
      rw [← hpv, (hE1 p hp).2, Frac.den_absF]
      exact jaroWinkler_den_pos tc p.1
    have hEne : E ≠ [] := by
      obtain ⟨c0, Crest, hC0⟩ := List.exists_cons_of_ne_nil hCne
      have hg := hcov c0 (by rw [hC0]; exact List.mem_cons_self _ _)
      intro hnil
      rw [hnil] at hg
      simp [dictGet] at hg
    obtain ⟨p0, Erest, hEeq⟩ := List.exists_cons_of_ne_nil hEne
    have hvne : E.map Prod.snd = p0.2 :: Erest.map Prod.snd := by
      rw [hEeq]; rfl
    have hveF : (E.map Prod.snd).isEmpty = false := by rw [hvne]; rfl
    have hmaxmem : pyMaxF (E.map Prod.snd) ∈ E.map Prod.snd := by
      rw [hvne]
      exact pyMaxF_mem _ _
    have hmaxden : 0 < (pyMaxF (E.map Prod.snd)).den := hvalden _ hmaxmem
    have hmaxge : ∀ y ∈ E.map Prod.snd,
        y.toRat ≤ (pyMaxF (E.map Prod.snd)).toRat := by
      intro y hy
      rw [hvne] at hy ⊢
      exact pyMaxF_ge p0.2 (Erest.map Prod.snd)
        (by rw [← hvne]; exact hvalden) y hy
    have h910 : ((⟨9, 10⟩ : Frac)).toRat = (9 : ℚ) / 10 := by
      norm_num [Frac.toRat]
    cases hlt : (⟨9, 10⟩ : Frac).ltB (pyMaxF (E.map Prod.snd)) with
    | false =>
        have hz : zeroDepsJaroWinkler tc C = none := by
          simp [zeroDepsJaroWinkler, hCb, ← hE, hveF, hlt]
        simp only [hz]
        right
        intro c hc
        have hmem : Frac.absF (jaroWinkler tc c) ∈ E.map Prod.snd :=
          List.mem_map.mpr ⟨(c, Frac.absF (jaroWinkler tc c)),
            dictGet_mem _ _ _ (hcov c hc), rfl⟩
        have hle := hmaxge _ hmem
        rw [Frac.toRat_absF_of_nonneg (jaroWinkler tc c)
          (jaroWinkler_den_pos tc c) (jaroWinkler_nonneg tc c)] at hle
        refine le_trans hle (le_of_not_lt ?_)
        intro hq
        have hq2 := (Frac.ltB_iff ⟨9, 10⟩ (pyMaxF (E.map Prod.snd))
          (by norm_num) hmaxden).mpr (by rw [h910]; exact hq)
        rw [hlt] at hq2
        exact Bool.noConfusion hq2
    | true =>
        have hz : zeroDepsJaroWinkler tc C = some ((E.map Prod.fst).getD
            (pyIndexF (E.map Prod.snd) (pyMaxF (E.map Prod.snd))) "") := by
          simp [zeroDepsJaroWinkler, hCb, ← hE, hveF, hlt]
        simp only [hz]
        obtain ⟨hltlen, hgeteq⟩ := pyIndexF_spec (pyMaxF (E.map Prod.snd))
          (E.map Prod.snd)
          ⟨pyMaxF (E.map Prod.snd), hmaxmem, Frac.eqB_refl _⟩
        have hidxE : pyIndexF (E.map Prod.snd) (pyMaxF (E.map Prod.snd))
            < E.length := by simpa using hltlen
        have hlenfst : pyIndexF (E.map Prod.snd) (pyMaxF (E.map Prod.snd))
            < (E.map Prod.fst).length := by simpa using hltlen
        have hkey : (E.map Prod.fst).getD
            (pyIndexF (E.map Prod.snd) (pyMaxF (E.map Prod.snd))) "" =
            (E.get ⟨pyIndexF (E.map Prod.snd) (pyMaxF (E.map Prod.snd)),
              hidxE⟩).1 := by
          rw [List.getD_eq_get _ _ hlenfst]
          simp [List.get_map]
        have hval : (E.map Prod.snd).get
            ⟨pyIndexF (E.map Prod.snd) (pyMaxF (E.map Prod.snd)), hltlen⟩ =
            (E.get ⟨pyIndexF (E.map Prod.snd) (pyMaxF (E.map Prod.snd)),
              hidxE⟩).2 := by
          simp [List.get_map]
        have hpE : E.get ⟨pyIndexF (E.map Prod.snd) (pyMaxF (E.map Prod.snd)),
            hidxE⟩ ∈ E := List.get_mem E _ _
        obtain ⟨hkC, hkval⟩ := hE1 _ hpE
        have heq2 : ((E.get ⟨pyIndexF (E.map Prod.snd)
            (pyMaxF (E.map Prod.snd)), hidxE⟩).2).eqB
            (pyMaxF (E.map Prod.snd)) = true := by
          rw [← hval]
          exact hgeteq
        have hdenk : 0 < ((E.get ⟨pyIndexF (E.map Prod.snd)
            (pyMaxF (E.map Prod.snd)), hidxE⟩).2).den := by
          refine hvalden _ ?_
          rw [← hval]
          exact List.get_mem _ _ _
        have hrateq : ((E.get ⟨pyIndexF (E.map Prod.snd)
            (pyMaxF (E.map Prod.snd)), hidxE⟩).2).toRat =
            (pyMaxF (E.map Prod.snd)).toRat :=
          (Frac.eqB_iff _ _ hdenk hmaxden).mp heq2
        have hkeyval : (jaroWinkler tc (E.get ⟨pyIndexF (E.map Prod.snd)
            (pyMaxF (E.map Prod.snd)), hidxE⟩).1).toRat =
            (pyMaxF (E.map Prod.snd)).toRat := by
          rw [← Frac.toRat_absF_of_nonneg (jaroWinkler tc _)
            (jaroWinkler_den_pos tc _) (jaroWinkler_nonneg tc _), ← hkval]
          exact hrateq
        rw [hkey]
        refine ⟨hCne, hkC, ?_, ?_⟩
        · rw [hkeyval]
          have hq2 := (Frac.ltB_iff ⟨9, 10⟩ (pyMaxF (E.map Prod.snd))
            (by norm_num) hmaxden).mp hlt
          rw [h910] at hq2
          exact hq2
        · intro c hc
          have hmem : Frac.absF (jaroWinkler tc c) ∈ E.map Prod.snd :=
            List.mem_map.mpr ⟨(c, Frac.absF (jaroWinkler tc c)),
              dictGet_mem _ _ _ (hcov c hc), rfl⟩
          have hle := hmaxge _ hmem
          rw [Frac.toRat_absF_of_nonneg (jaroWinkler tc c)
            (jaroWinkler_den_pos tc c) (jaroWinkler_nonneg tc c)] at hle
          rw [hkeyval]
          exact hle

/-- The 1-based source line n of the analyzed text. -/
def lineAt (lines : List String) (n : Nat) : String :=
  lines.getD (n - 1) ""

/-- Well-formedness of an AST position payload with respect to the analyzed
source text, as guaranteed by the CPython parser: 1-based line numbers, the
inclusive end line at or after the start line and within the text, and both
column offsets within their lines. -/
def posWFB (lines : List String) (p : Pos) : Bool :=
  decide (1 ≤ p.lineno) && decide (p.lineno ≤ p.endLineno) &&
  decide (p.endLineno ≤ lines.length) &&
  decide (p.colOffset ≤ (lineAt lines p.lineno).length) &&
  decide (p.endColOffset ≤ (lineAt lines p.endLineno).length)

mutual

/-- Well-formedness of every position payload of an expression. -/
def exprWFB (lines : List String) : Expr → Bool
  | Expr.name pos _ => posWFB lines pos
  | Expr.const _ => true
  | Expr.listE elts => exprListWFB lines elts
  | Expr.dictE keys values =>
      exprOptListWFB lines keys && exprListWFB lines values
  | Expr.subscript _ pos value slice =>
      posWFB lines pos && exprWFB lines value && exprWFB lines slice
  | Expr.binOp l r => exprWFB lines l && exprWFB lines r
  | Expr.attr value _ => exprWFB lines value
  | Expr.call func args keywords =>
      exprWFB lines func && exprListWFB lines args && kwListWFB lines keywords

/-- List form of exprWFB. -/
def exprListWFB (lines : List String) : List Expr → Bool
  | [] => true
  | e :: es => exprWFB lines e && exprListWFB lines es

/-- Optional-list form of exprWFB (dictionary keys). -/
def exprOptListWFB (lines : List String) : List (Option Expr) → Bool
  | [] => true
  | none :: es => exprOptListWFB lines es
  | some e :: es => exprWFB lines e && exprOptListWFB lines es

/-- Keyword-list form of exprWFB. -/
def kwListWFB (lines : List String) : List (Option String × Expr) → Bool
  | [] => true
  | (_, e) :: es => exprWFB lines e && kwListWFB lines es

end

/-- Well-formedness of every position payload of a statement. -/
def stmtWFB (lines : List String) : Stmt → Bool
  | Stmt.importStmt _ => true
  | Stmt.assign targets value =>
      exprListWFB lines targets && exprWFB lines value
  | Stmt.exprStmt value => exprWFB lines value

/-- Well-formedness of every position payload of a module body. -/
def progWFB (lines : List String) (prog : List Stmt) : Bool :=
  prog.all (stmtWFB lines)

/-- Validity of a diagnostic region with respect to the analyzed source: the
exclusive end does not precede the start, the start row is a real 1-based
line, the exclusive end row is at most one past the last line, and both
columns lie within their lines (the end column within the line the exclusive
end row points one past). -/
def regionOKB (lines : List String) (r : CodeRegion) : Bool :=
  !(r.stop.ltB r.start) &&
  decide (1 ≤ r.start.row) &&
  decide (r.stop.row ≤ lines.length + 1) &&
  decide (r.start.col ≤ (lineAt lines r.start.row).length) &&
  decide (r.stop.col ≤ (lineAt lines (r.stop.row - 1)).length)

/-- ColumnRef carries well-formed node and frame-name positions. -/
def refOK (lines : List String) (r : ColumnRef) : Bool :=
  posWFB lines r.pos && posWFB lines r.dfPos

/-- All diagnostics of a list have valid regions. -/
def diagsOK (lines : List String) (l : List Diagnostic) : Bool :=
  l.all (fun d => regionOKB lines d.region)

/-- from_ast_node on a well-formed position succeeds and yields a valid
region. -/
theorem fromAstPos_ok (lines : List String) (p : Pos)
    (h : posWFB lines p = true) :
    CodeRegion.fromAstPos p =
      Except.ok ⟨⟨p.lineno, p.colOffset⟩, ⟨p.endLineno + 1, p.endColOffset⟩⟩ ∧
    regionOKB lines
      ⟨⟨p.lineno, p.colOffset⟩, ⟨p.endLineno + 1, p.endColOffset⟩⟩ = true := by
  simp only [posWFB, Bool.and_eq_true, decide_eq_true_eq] at h
  obtain ⟨⟨⟨⟨h1, h2⟩, h3⟩, h4⟩, h5⟩ := h
  constructor
  · unfold CodeRegion.fromAstPos CodeRegion.make
    rw [if_neg]
    simp only [CodePosition.ltB, Bool.or_eq_true, Bool.and_eq_true,
      decide_eq_true_eq, not_or, not_and]
    constructor
    · omega
    · intro hrow
      omega
  · have hend : p.endLineno + 1 - 1 = p.endLineno := by omega
    simp only [regionOKB, CodePosition.ltB, hend]
    simp only [Bool.and_eq_true, Bool.not_eq_true', Bool.or_eq_false_iff,
      Bool.and_eq_false_iff, decide_eq_true_eq, decide_eq_false_iff_not]
    omega

/-- df_is_not_declared on a well-formed frame-name position yields a valid
region. -/
theorem dfIsNotDeclared_ok (lines : List String) (ref : ColumnRef)
    (h : posWFB lines ref.dfPos = true) (d : Diagnostic)
    (hd : dfIsNotDeclared ref = Except.ok d) :
    regionOKB lines d.region = true := by
  obtain ⟨he, hr⟩ := fromAstPos_ok lines ref.dfPos h
  unfold dfIsNotDeclared at hd
  rw [he] at hd
  injection hd with hd
  rw [← hd]
  exact hr

/-- wrong_read on a well-formed node position yields a valid region. -/
theorem wrongRead_ok (lines : List String) (colName : String) (nodePos : Pos)
    (dfName : String) (availableCols : List String)
    (h : posWFB lines nodePos = true) (d : Diagnostic)
    (hd : wrongRead colName nodePos dfName availableCols = Except.ok d) :
    regionOKB lines d.region = true := by
  obtain ⟨he, hr⟩ := fromAstPos_ok lines nodePos h
  unfold wrongRead at hd
  rw [he] at hd
  injection hd with hd
  rw [← hd]
  exact hr

/-- wrong_assignment on a well-formed write position yields a valid
region. -/
theorem wrongAssignment_ok (lines : List String) (writeCol : String)
    (missingCols : List String) (writePos : Pos) (dfName : String)
    (availableCols : List String)
    (h : posWFB lines writePos = true) (d : Diagnostic)
    (hd : wrongAssignment writeCol missingCols writePos dfName availableCols
      = Except.ok d) :
    regionOKB lines d.region = true := by
  obtain ⟨he, hr⟩ := fromAstPos_ok lines writePos h
  unfold wrongAssignment at hd
  rw [he] at hd
  injection hd with hd
  rw [← hd]
  exact hr

/-- _try_create_dataframe never touches the diagnostics. -/
theorem tryCreate_diags (s : CState) (targets : List Expr) (value : Expr)
    (s1 : CState) (h : tryCreateDataframe s targets value = some s1) :
    s1.diagnostics = s.diagnostics := by
  unfold tryCreateDataframe at h
  repeat' split at h
  all_goals first
    | exact Option.noConfusion h
    | (injection h with h2; rw [← h2])

/-- _try_dataframe_method never touches the diagnostics. -/
theorem tryMethod_diags (s : CState) (targets : List Expr) (value : Expr)
    (s1 : CState) (h : tryDataframeMethod s targets value = some s1) :
    s1.diagnostics = s.diagnostics := by
  unfold tryDataframeMethod at h
  repeat' split at h
  all_goals first
    | exact Option.noConfusion h
    | (injection h with h2; rw [← h2])

/-- Membership form of the list well-formedness predicate. -/
theorem exprListWFB_mem (lines : List String) :
    ∀ (l : List Expr), exprListWFB lines l = true →
      ∀ e ∈ l, exprWFB lines e = true := by
  intro l
  induction l with
  | nil => intro _ e he; exact absurd he (List.not_mem_nil e)
  | cons a t ih =>
      intro h e he
      simp only [exprListWFB, Bool.and_eq_true] at h
      rcases List.mem_cons.mp he with h2 | h2
      · rw [h2]; exact h.1
      · exact ih h.2 e h2

/-- Membership form of the optional-list well-formedness predicate. -/
theorem exprOptListWFB_mem (lines : List String) :
    ∀ (l : List (Option Expr)), exprOptListWFB lines l = true →
      ∀ e, some e ∈ l → exprWFB lines e = true := by
  intro l
  induction l with
  | nil => intro _ e he; exact absurd he (List.not_mem_nil _)
  | cons a t ih =>
      intro h e he
      rcases List.mem_cons.mp he with h2 | h2
      · rw [← h2] at h
        simp only [exprOptListWFB, Bool.and_eq_true] at h
        exact h.1
      · cases a with
        | none => exact ih h e h2
        | some a2 =>
            simp only [exprOptListWFB, Bool.and_eq_true] at h
            exact ih h.2 e h2

/-- Membership form of the keyword-list well-formedness predicate. -/
theorem kwListWFB_mem (lines : List String) :
    ∀ (l : List (Option String × Expr)), kwListWFB lines l = true →
      ∀ p ∈ l, exprWFB lines p.2 = true := by
  intro l
  induction l with
  | nil => intro _ p hp; exact absurd hp (List.not_mem_nil p)
  | cons a t ih =>
      intro h p hp
      obtain ⟨ak, av⟩ := a
      simp only [kwListWFB, Bool.and_eq_true] at h
      rcases List.mem_cons.mp hp with h2 | h2
      · rw [h2]; exact h.1
      · exact ih h.2 p h2

/-- Every child visited by generic_visit of a well-formed expression is
well formed. -/
theorem childExprs_WF (lines : List String) (e : Expr)
    (h : exprWFB lines e = true) :
    ∀ c ∈ childExprs e, exprWFB lines c = true := by
  cases e with
  | name pos i => intro c hc; exact absurd hc (List.not_mem_nil c)
  | const v => intro c hc; exact absurd hc (List.not_mem_nil c)
  | listE elts => exact exprListWFB_mem lines elts h
  | dictE ks vs =>
      intro c hc
      simp only [exprWFB, Bool.and_eq_true] at h
      rcases List.mem_append.mp hc with h2 | h2
      · obtain ⟨ok2, hok, hoc⟩ := List.mem_filterMap.mp h2
        cases ok2 with
        | none => exact Option.noConfusion hoc
        | some c2 =>
            have hcc : c2 = c := Option.some.inj hoc
            rw [← hcc]
            exact exprOptListWFB_mem lines ks h.1 c2 hok
      · exact exprListWFB_mem lines vs h.2 c h2
  | subscript nid pos v sl =>
      intro c hc
      simp only [exprWFB, Bool.and_eq_true] at h
      rcases List.mem_cons.mp hc with h2 | h2
      · rw [h2]; exact h.1.2
      · rcases List.mem_cons.mp h2 with h3 | h3
        · rw [h3]; exact h.2
        · exact absurd h3 (List.not_mem_nil c)
  | binOp a b =>
      intro c hc
      simp only [exprWFB, Bool.and_eq_true] at h
      rcases List.mem_cons.mp hc with h2 | h2
      · rw [h2]; exact h.1
      · rcases List.mem_cons.mp h2 with h3 | h3
        · rw [h3]; exact h.2
        · exact absurd h3 (List.not_mem_nil c)
  | attr v a =>
      intro c hc
      rcases List.mem_cons.mp hc with h2 | h2
      · rw [h2]; exact h
      · exact absurd h2 (List.not_mem_nil c)
  | call fn args kws =>
      intro c hc
      simp only [exprWFB, Bool.and_eq_true] at h
      rcases List.mem_cons.mp hc with h2 | h2
      · rw [h2]; exact h.1.1
      · rcases List.mem_append.mp h2 with h3 | h3
        · exact exprListWFB_mem lines args h.1.2 c h3
        · obtain ⟨p, hp, hpc⟩ := List.mem_map.mp h3
          rw [← hpc]
          exact kwListWFB_mem lines kws h.2 p hp

/-- The column extractor only builds references from the positions of the
subscript node and its frame Name node, so well-formedness carries over. -/
theorem extractColumnRef_WF (lines : List String) (e : Expr)
    (refs : List ColumnRef) (hwf : exprWFB lines e = true)
    (h : extractColumnRef e = some refs) :
    ∀ r ∈ refs, refOK lines r = true := by
  cases e <;> try exact Option.noConfusion h
  case subscript nid pos v sl =>
    cases v <;> try exact Option.noConfusion h
    case name npos dfId =>
      simp only [exprWFB, Bool.and_eq_true] at hwf
      cases sl <;> try exact Option.noConfusion h
      case const cv =>
        cases cv <;> try exact Option.noConfusion h
        case str cs =>
          simp only [extractColumnRef] at h
          injection h with h
          intro r hr
          rw [← h] at hr
          have hrr : r = ⟨nid, pos, npos, dfId, [cs]⟩ :=
            List.mem_singleton.mp hr
          rw [hrr]
          simp [refOK, hwf.1.1, hwf.1.2]
      case listE elts =>
        simp only [extractColumnRef] at h
        cases hp : parseStrListElts elts with
        | none => rw [hp] at h; exact Option.noConfusion h
        | some colNames =>
            simp only [hp] at h
            by_cases hnil : colNames = []
            · rw [if_pos hnil] at h
              exact Option.noConfusion h
            · rw [if_neg hnil] at h
              injection h with h
              intro r hr
              rw [← h] at hr
              have hrr : r = ⟨nid, pos, npos, dfId, colNames⟩ :=
                List.mem_singleton.mp hr
              rw [hrr]
              simp [refOK, hwf.1.1, hwf.1.2]

/-- Single-reference form of extractColumnRef_WF. -/
theorem extractSingleColumnRef_WF (lines : List String) (e : Expr)
    (r : ColumnRef) (hwf : exprWFB lines e = true)
    (h : extractSingleColumnRef e = some r) : refOK lines r = true := by
  unfold extractSingleColumnRef at h
  cases hc : extractColumnRef e with
  | none => rw [hc] at h; exact Option.noConfusion h
  | some refs =>
      rw [hc] at h
      cases refs with
      | nil => exact Option.noConfusion h
      | cons r0 rest =>
          injection h with h
          rw [← h]
          exact extractColumnRef_WF lines e _ hwf hc r0 (List.mem_cons_self _ _)

/-- The binop stack walk only emits references extracted from subtrees of
the walked expression, so well-formedness carries over. -/
theorem binopGo_WF (lines : List String) :
    ∀ (fuel : Nat) (stack : List Expr) (acc out : List ColumnRef),
      (∀ e ∈ stack, exprWFB lines e = true) →
      (∀ r ∈ acc, refOK lines r = true) →
      binopGo fuel stack acc = some out →
      ∀ r ∈ out, refOK lines r = true := by
  intro fuel
  induction fuel with
  | zero =>
      intro stack acc out hs ha h
      cases stack with
      | nil => injection h with h; rw [← h]; exact ha
      | cons n rest => exact Option.noConfusion h
  | succ fuel ih =>
      intro stack acc out hs ha h
      cases stack with
      | nil => injection h with h; rw [← h]; exact ha
      | cons n rest =>
          simp only [binopGo] at h
          cases hb : asBinop n with
          | some lr =>
              obtain ⟨bl, br⟩ := lr
              simp only [hb] at h
              have hn := asBinop_eq_some hb
              have hnwf := hs n (List.mem_cons_self _ _)
              rw [hn] at hnwf
              simp only [exprWFB, Bool.and_eq_true] at hnwf
              refine ih (br :: bl :: rest) acc out ?_ ha h
              intro e he
              rcases List.mem_cons.mp he with h2 | h2
              · rw [h2]; exact hnwf.2
              · rcases List.mem_cons.mp h2 with h3 | h3
                · rw [h3]; exact hnwf.1
                · exact hs e (List.mem_cons_of_mem _ h3)
          | none =>
              simp only [hb] at h
              cases hx : extractSingleColumnRef n with
              | none => rw [hx] at h; exact Option.noConfusion h
              | some ref =>
                  simp only [hx] at h
                  refine ih rest (acc ++ [ref]) out
                    (fun e he => hs e (List.mem_cons_of_mem _ he)) ?_ h
                  intro r hr
                  rcases List.mem_append.mp hr with h2 | h2
                  · exact ha r h2
                  · have hrr : r = ref := List.mem_singleton.mp h2
                    rw [hrr]
                    exact extractSingleColumnRef_WF lines n ref
                      (hs n (List.mem_cons_self _ _)) hx

/-- Registry extraction only emits references with well-formed positions. -/
theorem extractorExtract_WF (lines : List String) (e : Expr)
    (refs : List ColumnRef) (hwf : exprWFB lines e = true)
    (h : extractorExtract e = some refs) :
    ∀ r ∈ refs, refOK lines r = true := by
  unfold extractorExtract at h
  by_cases h1 : truthyRefs (extractColumnRef e) = true
  · rw [if_pos h1] at h
    exact extractColumnRef_WF lines e refs hwf h
  · rw [if_neg h1] at h
    by_cases h2 : truthyRefs (extractColumnRefsFromBinop e) = true
    · rw [if_pos h2] at h
      cases e <;> try exact Option.noConfusion h
      case pos.binOp bl br =>
        simp only [extractColumnRefsFromBinop] at h
        cases hg : binopGo (exprSize bl + exprSize br) [bl, br].reverse []
            with
        | none => rw [hg] at h; exact Option.noConfusion h
        | some refs0 =>
            simp only [hg] at h
            by_cases hnil : refs0 = []
            · rw [if_pos hnil] at h
              exact Option.noConfusion h
            · rw [if_neg hnil] at h
              injection h with h
              rw [← h]
              simp only [exprWFB, Bool.and_eq_true] at hwf
              refine binopGo_WF lines _ _ [] refs0 ?_
                (fun r hr => absurd hr (List.not_mem_nil r)) hg
              intro e2 he2
              rcases List.mem_cons.mp he2 with hh | hh
              · rw [hh]; exact hwf.2
              · rcases List.mem_cons.mp hh with hh2 | hh2
                · rw [hh2]; exact hwf.1
                · exact absurd hh2 (List.not_mem_nil e2)
    · rw [if_neg h2] at h
      exact Option.noConfusion h

/-- Appending a valid diagnostic preserves region validity of the list. -/
theorem diagsOK_append (lines : List String) (l : List Diagnostic)
    (d : Diagnostic) (hl : diagsOK lines l = true)
    (hd : regionOKB lines d.region = true) :
    diagsOK lines (l ++ [d]) = true := by
  simp only [diagsOK, List.all_append, Bool.and_eq_true] at hl ⊢
  refine ⟨hl, ?_⟩
  simp [hd]

/-- The visitor only ever appends diagnostics with valid regions: on a
well-formed task every diagnostic of a successful run state has a valid
region, provided the incoming diagnostics do. -/
theorem run_diagsOK (lines : List String) (fuel : Nat) :
    ∀ s, diagsOK lines s.diagnostics = true →
      (∀ l s2, (∀ st ∈ l, stmtWFB lines st = true) →
        run fuel s (VTask.stmts l) = Except.ok s2 →
        diagsOK lines s2.diagnostics = true) ∧
      (∀ st s2, stmtWFB lines st = true →
        run fuel s (VTask.stmt st) = Except.ok s2 →
        diagsOK lines s2.diagnostics = true) ∧
      (∀ l s2, (∀ e ∈ l, exprWFB lines e = true) →
        run fuel s (VTask.exprs l) = Except.ok s2 →
        diagsOK lines s2.diagnostics = true) ∧
      (∀ e s2, exprWFB lines e = true →
        run fuel s (VTask.expr e) = Except.ok s2 →
        diagsOK lines s2.diagnostics = true) := by
  induction fuel with
  | zero =>
      intro s hs
      refine ⟨?_, ?_, ?_, ?_⟩ <;> intro a s2 hastuff h <;> simp [run] at h
  | succ fuel ih =>
      intro s hs
      refine ⟨?_, ?_, ?_, ?_⟩
      · intro l s2 hwf h
        cases l with
        | nil =>
            simp only [run] at h
            injection h with h
            rw [← h]
            exact hs
        | cons st rest =>
            simp only [run] at h
            cases he : run fuel s (VTask.stmt st) with
            | error m => rw [he] at h; exact Except.noConfusion h
            | ok s1 =>
                rw [he] at h
                have h1 := (ih s hs).2.1 st s1
                  (hwf st (List.mem_cons_self _ _)) he
                exact (ih s1 h1).1 rest s2
                  (fun st2 hst2 => hwf st2 (List.mem_cons_of_mem _ hst2)) h
      · intro st s2 hwf h
        cases st with
        | importStmt names =>
            simp only [run] at h
            injection h with h
            rw [← h]
            exact hs
        | exprStmt e =>
            exact (ih s hs).2.2.2 e s2 hwf h
        | assign targets value =>
            simp only [stmtWFB, Bool.and_eq_true] at hwf
            have hallWF : ∀ e ∈ targets ++ [value], exprWFB lines e = true := by
              intro e he
              rcases List.mem_append.mp he with h2 | h2
              · exact exprListWFB_mem lines targets hwf.1 e h2
              · rw [List.mem_singleton.mp h2]; exact hwf.2
            simp only [run] at h
            cases hc : tryCreateDataframe s targets value with
            | some s1 =>
                simp only [hc] at h
                have hd1 : diagsOK lines s1.diagnostics = true := by
                  rw [tryCreate_diags s targets value s1 hc]; exact hs
                exact (ih s1 hd1).2.2.1 (targets ++ [value]) s2 hallWF h
            | none =>
            simp only [hc] at h
            cases hm : tryDataframeMethod s targets value with
            | some s1 =>
                simp only [hm] at h
                have hd1 : diagsOK lines s1.diagnostics = true := by
                  rw [tryMethod_diags s targets value s1 hm]; exact hs
                exact (ih s1 hd1).2.2.1 (targets ++ [value]) s2 hallWF h
            | none =>
            simp only [hm] at h
            cases targets with
            | nil => exact (ih s hs).2.2.1 _ s2 hallWF h
            | cons t rest =>
              cases rest with
              | cons t2 rest2 =>
                  cases t <;> exact (ih s hs).2.2.1 _ s2 hallWF h
              | nil =>
                have htWF : exprWFB lines t = true :=
                  exprListWFB_mem lines [t] hwf.1 t (List.mem_cons_self _ _)
                cases t with
                | name tp tx =>
                    exact (ih ⟨s.skip, s.diagnostics, s.dfs, s.pandasAliases,
                      dictSet s.definitions tx (getValue value)⟩ hs).2.2.1
                      _ s2 hallWF h
                | const v => exact (ih s hs).2.2.1 _ s2 hallWF h
                | listE elts => exact (ih s hs).2.2.1 _ s2 hallWF h
                | dictE ks vs => exact (ih s hs).2.2.1 _ s2 hallWF h
                | binOp a b => exact (ih s hs).2.2.1 _ s2 hallWF h
                | attr a b => exact (ih s hs).2.2.1 _ s2 hallWF h
                | call fn args kws => exact (ih s hs).2.2.1 _ s2 hallWF h
                | subscript nid pos v sl =>
                    cases href : extractSingleColumnRef
                        (Expr.subscript nid pos v sl) with
                    | none =>
                        simp only [href] at h
                        exact (ih s hs).2.2.1 _ s2 hallWF h
                    | some targetRef =>
                        simp only [href] at h
                        have hrefOK := extractSingleColumnRef_WF lines _
                          targetRef htWF href
                        simp only [refOK, Bool.and_eq_true] at hrefOK
                        cases htr : dictGet s.dfs targetRef.dfName with
                        | none =>
                            simp only [htr] at h
                            obtain ⟨d, hd, hrun2⟩ := except_bind_ok _ _ _ h
                            have hok := dfIsNotDeclared_ok lines targetRef
                              hrefOK.2 d hd
                            have hds := diagsOK_append lines s.diagnostics d
                              hs hok
                            exact (ih _ hds).2.2.1 _ s2 hallWF hrun2
                        | some tracker =>
                            simp only [htr] at h
                            cases hex : extractorExtract value with
                            | none =>
                                simp only [hex] at h
                                exact (ih ⟨s.skip ++ [targetRef.nid],
                                  s.diagnostics,
                                  dictSet s.dfs targetRef.dfName
                                    (List.foldl (fun tr c =>
                                      (tr.tryAdd c DepArg.noDeps).2) tracker
                                      targetRef.colNames),
                                  s.pandasAliases, s.definitions⟩ hs).2.2.1
                                  _ s2 hallWF h
                            | some readRefs =>
                                simp only [hex] at h
                                cases hbad : readRefs.find?
                                    (fun r => !(dictMem s.dfs r.dfName)) with
                                | some badRef =>
                                    simp only [hbad] at h
                                    obtain ⟨d, hd, hrun2⟩ :=
                                      except_bind_ok _ _ _ h
                                    have hbmem :=
                                      List.mem_of_find?_eq_some hbad
                                    have hbOK := extractorExtract_WF lines
                                      value readRefs hwf.2 hex badRef hbmem
                                    simp only [refOK, Bool.and_eq_true] at hbOK
                                    have hok := dfIsNotDeclared_ok lines badRef
                                      hbOK.2 d hd
                                    have hds := diagsOK_append lines
                                      s.diagnostics d hs hok
                                    exact (ih _ hds).2.2.1 _ s2 hallWF hrun2
                                | none =>
                                    simp only [hbad] at h
                                    cases hcols : targetRef.colNames with
                                    | nil =>
                                        simp only [hcols] at h
                                        exact Except.noConfusion h
                                    | cons firstCol restCols =>
                                        simp only [hcols] at h
                                        cases hmiss : (tracker.tryAdd firstCol
                                            (DepArg.many (readRefs.map
                                              (fun r =>
                                                r.colNames.headD "")))).1 with
                                        | some missing =>
                                            simp only [hmiss] at h
                                            obtain ⟨d, hd, hrun2⟩ :=
                                              except_bind_ok _ _ _ h
                                            have hok := wrongAssignment_ok
                                              lines _ missing targetRef.pos
                                              targetRef.dfName _ hrefOK.1 d hd
                                            have hds := diagsOK_append lines
                                              s.diagnostics d hs hok
                                            exact (ih _ hds).2.2.1 _ s2
                                              hallWF hrun2
                                        | none =>
                                            simp only [hmiss] at h
                                            exact (ih ⟨s.skip ++
                                              [targetRef.nid] ++
                                              List.map (fun r => r.nid)
                                                readRefs,
                                              s.diagnostics,
                                              dictSet s.dfs targetRef.dfName
                                                (List.foldl (fun tr c =>
                                                  (tr.tryAdd c (DepArg.many
                                                    (List.map (fun r =>
                                                      r.colNames.headD "")
                                                      readRefs))).2)
                                                  (tracker.tryAdd firstCol
                                                    (DepArg.many (List.map
                                                      (fun r =>
                                                        r.colNames.headD "")
                                                      readRefs))).2
                                                  restCols),
                                              s.pandasAliases,
                                              s.definitions⟩ hs).2.2.1 _ s2
                                              hallWF h
      · intro l s2 hwf h
        cases l with
        | nil =>
            simp only [run] at h
            injection h with h
            rw [← h]
            exact hs
        | cons e rest =>
            simp only [run] at h
            cases he : run fuel s (VTask.expr e) with
            | error m => rw [he] at h; exact Except.noConfusion h
            | ok s1 =>
                rw [he] at h
                have h1 := (ih s hs).2.2.2 e s1
                  (hwf e (List.mem_cons_self _ _)) he
                exact (ih s1 h1).2.2.1 rest s2
                  (fun e2 he2 => hwf e2 (List.mem_cons_of_mem _ he2)) h
      · intro e s2 hwf h
        cases e with
        | name p i =>
            rw [run_exprs_nil fuel s s2 h]
            exact hs
        | const v =>
            rw [run_exprs_nil fuel s s2 h]
            exact hs
        | listE elts =>
            exact (ih s hs).2.2.1 elts s2 (childExprs_WF lines _ hwf) h
        | dictE ks vs =>
            exact (ih s hs).2.2.1 _ s2 (childExprs_WF lines _ hwf) h
        | binOp a b =>
            exact (ih s hs).2.2.1 _ s2 (childExprs_WF lines _ hwf) h
        | attr a b =>
            exact (ih s hs).2.2.1 _ s2 (childExprs_WF lines _ hwf) h
        | call fn args kws =>
            exact (ih s hs).2.2.1 _ s2 (childExprs_WF lines _ hwf) h
        | subscript nid pos v sl =>
            have hchild : ∀ c ∈ [v, sl], exprWFB lines c = true :=
              childExprs_WF lines _ hwf
            simp only [run] at h
            by_cases hskip : nid ∈ s.skip
            · rw [if_pos hskip] at h
              exact (ih s hs).2.2.1 [v, sl] s2 hchild h
            · rw [if_neg hskip] at h
              cases href : extractSingleColumnRef
                  (Expr.subscript nid pos v sl) with
              | none =>
                  rw [href] at h
                  exact (ih s hs).2.2.1 [v, sl] s2 hchild h
              | some ref =>
                  rw [href] at h
                  have hrefOK := extractSingleColumnRef_WF lines _ ref hwf href
                  simp only [refOK, Bool.and_eq_true] at hrefOK
                  cases htr : dictGet s.dfs ref.dfName with
                  | none =>
                      simp only [htr] at h
                      exact (ih s hs).2.2.1 [v, sl] s2 hchild h
                  | some tracker =>
                      simp only [htr] at h
                      by_cases hlen : ref.colNames.length ≠ 1
                      · rw [if_pos hlen] at h
                        exact (ih s hs).2.2.1 [v, sl] s2 hchild h
                      · rw [if_neg hlen] at h
                        cases hmiss : (tracker.tryGet
                            (ref.colNames.headD "")).1 with
                        | some missingName =>
                            simp only [hmiss] at h
                            obtain ⟨d, hd, hrun2⟩ := except_bind_ok _ _ _ h
                            have hok := wrongRead_ok lines missingName ref.pos
                              ref.dfName _ hrefOK.1 d hd
                            have hds := diagsOK_append lines s.diagnostics d
                              hs hok
                            exact (ih _ hds).2.2.1 [v, sl] s2 hchild hrun2
                        | none =>
                            simp only [hmiss] at h
                            exact (ih ⟨s.skip, s.diagnostics,
                              dictSet s.dfs ref.dfName
                                (tracker.tryGet (ref.colNames.headD "")).2,
                              s.pandasAliases, s.definitions⟩ hs).2.2.1
                              [v, sl] s2 hchild h

/-- C8: every diagnostic produced by a successful checker run on a program
whose AST positions are well formed with respect to the analyzed source text
has a valid source region: the exclusive end does not precede the start, the
start row is a real line, the exclusive end row is at most one past the last
line of the source (and of the node the region came from, whose inclusive
end line from_ast_node increments by one), and both columns lie within their
lines, so the region denotes an actual substring of the source. -/
theorem claim_C8 (lines : List String) (prog : List Stmt) (s2 : CState)
    (hwf : progWFB lines prog = true)
    (hrun : Checker.check prog = Except.ok s2) :
    ∀ d ∈ s2.diagnostics, regionOKB lines d.region = true := by
  have h0 : diagsOK lines initState.diagnostics = true := rfl
  have h := (run_diagsOK lines (fuelFor prog) initState h0).1 prog s2
    (fun st hst => by
      have h2 := List.all_eq_true.mp hwf st hst
      simpa using h2) hrun
  intro d hd
  have h3 := List.all_eq_true.mp h d hd
  simpa using h3

/-- The double-quote character of the rendered source lines. -/
def dquote : String :=
  String.singleton (Char.ofNat 34)

/-- Source text of the C8 witness program (the pandas import, the creation
of df with column A from a dictionary literal, and the read of column B). -/
def c8lines : List String :=
  ["imp" ++ "ort pandas as pd",
   "df = pd.DataFrame(\x7b" ++ dquote ++ "A" ++ dquote ++ ": [1]\x7d)",
   "x = df[" ++ dquote ++ "B" ++ dquote ++ "]"]

/-- The C8 witness program: import pandas, create df with column A, read the
missing column B (emitting one diagnostic). All positions match c8lines. -/
def c8prog : List Stmt :=
  [Stmt.importStmt [("pandas", some "pd")],
   Stmt.assign [Expr.name ⟨2, 0, 2, 2⟩ "df"]
     (Expr.call (Expr.attr (Expr.name ⟨2, 5, 2, 7⟩ "pd") "DataFrame")
       [Expr.dictE [some (Expr.const (ConstVal.str "A"))]
         [Expr.listE [Expr.const (ConstVal.intVal 1)]]] []),
   Stmt.assign [Expr.name ⟨3, 0, 3, 1⟩ "x"]
     (Expr.subscript 1 ⟨3, 4, 3, 11⟩ (Expr.name ⟨3, 4, 3, 6⟩ "df")
       (Expr.const (ConstVal.str "B")))]

/-- The final checker state of the C8 witness run. -/
def c8result : CState :=
  ((Checker.check c8prog).toOption).getD initState

/-- Witness for C8 at a concrete input: the witness program is well formed
for its source text, its run emits exactly one diagnostic, and that
diagnostic has a valid region. -/
theorem claim_C8_witness :
    progWFB c8lines c8prog = true ∧
    c8result.diagnostics.length = 1 ∧
    (∀ d ∈ c8result.diagnostics, regionOKB c8lines d.region = true) :=
  ⟨by decide, rfl, claim_C8 c8lines c8prog c8result (by decide) rfl⟩
